import Mathlib

/-!
Verification of the Tess maze-game engine specification against a shallow
embedding of the TypeScript sources.

Conventions of the embedding:
* Machine numbers used for grid logic are JavaScript integers in practice;
  they are modelled as `ℤ` (cell coordinates) and `ℕ` (bitmasks).
  World-space coordinates are modelled as `ℚ`.
* The passage grid `grid[z][x]` is modelled as a total function
  `Grid := ℤ → ℤ → ℕ` applied as `g x z`; the carving code only ever
  writes in-bounds cells (proved below), so the functional model agrees
  with the array model.  For the construction-error claim (C8) a separate
  checked model with JavaScript out-of-bounds semantics is used.
* `Math.random()`-driven choices are modelled by oracle parameters:
  a stream of direction permutations for the shuffles, and a stream of
  list indices for the uniform picks.
* Unbounded loops/recursion are modelled with fuel; fuel bounds are either
  proved sufficient (maze generation) or witnessed by the computation
  returning a result (the pathfinder evaluations).
-/

namespace Tess

/-- The four cardinal directions, `Directions.ts` `Direction` enum. -/
inductive Dir : Type
  | north
  | south
  | east
  | west
deriving DecidableEq, Repr

/-- Bit flag of a direction: North=1, South=2, East=4, West=8 (`Directions.ts`). -/
def dirBit : Dir → ℕ
  | .north => 1
  | .south => 2
  | .east => 4
  | .west => 8

/-- Bit index of a direction (so that `dirBit d = 2 ^ dirIdx d`). -/
def dirIdx : Dir → ℕ
  | .north => 0
  | .south => 1
  | .east => 2
  | .west => 3

/-- Horizontal delta of a direction, `Directions.ts` `dx`. -/
def dx : Dir → ℤ
  | .east => 1
  | .west => -1
  | _ => 0

/-- Depth delta of a direction, `Directions.ts` `dz` (North is -1, South is +1). -/
def dz : Dir → ℤ
  | .north => -1
  | .south => 1
  | _ => 0

/-- Opposite direction, `Directions.ts` `opposite`. -/
def opposite : Dir → Dir
  | .north => .south
  | .south => .north
  | .west => .east
  | .east => .west

/-- The fixed list of the four directions in enum order. -/
def dirList : List Dir := [.north, .south, .east, .west]

/-- The passage grid: `g x z` is the bitmask `grid[z][x]`. -/
abbrev Grid := ℤ → ℤ → ℕ

/-- Mask test `(mask & Direction.d) !== 0` from the sources. -/
def hasDir (m : ℕ) (d : Dir) : Bool := m &&& dirBit d != 0

/-- Functional update of one grid cell. -/
def setCell (g : Grid) (x z : ℤ) (v : ℕ) : Grid :=
  fun a b => if a = x ∧ b = z then v else g a b

/-- In-bounds predicate `0 ≤ x < w ∧ 0 ≤ z < h` for cell coordinates. -/
def inB (w h x z : ℤ) : Prop := 0 ≤ x ∧ x < w ∧ 0 ≤ z ∧ z < h

instance (w h x z : ℤ) : Decidable (inB w h x z) := by
  unfold inB; infer_instance

/-- The symmetric write pair of the carving code:
`grid[z][x] |= dir; grid[nz][nx] |= opposite(dir)` (`Maze.ts`). -/
def carveWrite (g : Grid) (x z : ℤ) (d : Dir) (nx nz : ℤ) : Grid :=
  let g1 := setCell g x z (g x z ||| dirBit d)
  setCell g1 nx nz (g1 nx nz ||| dirBit (opposite d))

/-- One iteration of the `carvePassagesFrom` direction loop: if the neighbor
in direction `d` is in bounds and unvisited, carve the symmetric pair and
recurse into the neighbor (`rec` is the recursive carver). -/
def carveStep (w h : ℤ) (rec : Grid → ℤ → ℤ → ℕ → Grid × ℕ) (x z : ℤ)
    (gk : Grid × ℕ) (d : Dir) : Grid × ℕ :=
  let nx := x + dx d
  let nz := z + dz d
  if 0 ≤ nx ∧ nx < w ∧ 0 ≤ nz ∧ nz < h ∧ gk.1 nx nz = 0 then
    rec (carveWrite gk.1 x z d nx nz) nx nz gk.2
  else gk

/-- Recursive carver `Maze.carvePassagesFrom` (`Maze.ts`, current revision).
`ρ` yields the shuffled direction list of each call (the source shuffles
`[North, South, East, West]` with a random comparator, producing some
permutation); `k` indexes the stream; `fuel` bounds the recursion depth and
is proved sufficient below. -/
def carvePassagesFrom (w h : ℤ) (ρ : ℕ → List Dir) :
    ℕ → Grid → ℤ → ℤ → ℕ → Grid × ℕ
  | 0, g, _, _, k => (g, k)
  | fuel+1, g, x, z, k =>
      (ρ k).foldl (carveStep w h (carvePassagesFrom w h ρ fuel) x z) (g, k + 1)

/-- `Maze.generateMaze` (current revision): carve from `(0, 0)` on the all-zero
grid.  The fuel `w*h + 1` dominates the recursion depth (proved below). -/
def generateMaze (w h : ℤ) (ρ : ℕ → List Dir) : Grid :=
  (carvePassagesFrom w h ρ (w.toNat * h.toNat + 1) (fun _ _ => 0) 0 0 0).1

/-- The finite set of in-bounds cells of a `w × h` grid. -/
def cellsFin (w h : ℤ) : Finset (ℤ × ℤ) :=
  Finset.Icc 0 (w - 1) ×ˢ Finset.Icc 0 (h - 1)

/-- The visited cells: in-bounds cells with a nonzero mask. -/
def Vset (w h : ℤ) (g : Grid) : Finset (ℤ × ℤ) :=
  (cellsFin w h).filter (fun c => g c.1 c.2 ≠ 0)

/-- Number of unvisited in-bounds cells; the recursion measure of the carver. -/
def unvis (w h : ℤ) (g : Grid) : ℕ :=
  ((cellsFin w h).filter (fun c => g c.1 c.2 = 0)).card

/-- Per-cell passage contribution: its East bit plus its South bit. -/
def edgeSummand (g : Grid) (c : ℤ × ℤ) : ℕ :=
  (if hasDir (g c.1 c.2) .east then 1 else 0) +
  (if hasDir (g c.1 c.2) .south then 1 else 0)

/-- Number of carved passages, counting each passage once: an edge between two
horizontally adjacent cells shows as the East bit of its western endpoint and
an edge between vertically adjacent cells as the South bit of its northern
endpoint. -/
def edgeCount (w h : ℤ) (g : Grid) : ℕ :=
  ∑ c ∈ cellsFin w h, edgeSummand g c

/-- The symmetric-adjacency invariant of the spec: every direction bit set on an
in-bounds cell points to an in-bounds neighbor carrying the opposite bit. -/
def SymmAdj (w h : ℤ) (g : Grid) : Prop :=
  ∀ x z : ℤ, ∀ d : Dir, inB w h x z → hasDir (g x z) d = true →
    inB w h (x + dx d) (z + dz d) ∧
    hasDir (g (x + dx d) (z + dz d)) (opposite d) = true

/-- Executable symmetric-adjacency check over the bounded cell range. -/
def symmAdjB (w h : ℤ) (g : Grid) : Bool :=
  (List.range w.toNat).all fun i =>
    (List.range h.toNat).all fun j =>
      dirList.all fun d =>
        !hasDir (g (i : ℤ) (j : ℤ)) d ||
          (decide (inB w h ((i : ℤ) + dx d) ((j : ℤ) + dz d)) &&
           hasDir (g ((i : ℤ) + dx d) ((j : ℤ) + dz d)) (opposite d))

/-- One step along a carved passage, starting at an in-bounds cell. -/
def passStep (w h : ℤ) (g : Grid) (a b : ℤ × ℤ) : Prop :=
  inB w h a.1 a.2 ∧ ∃ d : Dir, hasDir (g a.1 a.2) d = true ∧
    b = (a.1 + dx d, a.2 + dz d)

/-- Reachability in the passage graph. -/
def ReachP (w h : ℤ) (g : Grid) : ℤ × ℤ → ℤ × ℤ → Prop :=
  Relation.ReflTransGen (passStep w h g)

/-- All in-bounds grid-graph neighbors of a cell are visited. -/
def ClosedCell (w h : ℤ) (g : Grid) (c : ℤ × ℤ) : Prop :=
  ∀ d : Dir, inB w h (c.1 + dx d) (c.2 + dz d) →
    (c.1 + dx d, c.2 + dz d) ∈ Vset w h g

/-- Bitwise growth of grids: every mask bit present in `g` is present in `g'`. -/
def MaskGrow (g g' : Grid) : Prop :=
  ∀ a b : ℤ, ∀ i : ℕ, (g a b).testBit i = true → (g' a b).testBit i = true

/-- Connectivity invariant carried through the carver: the visited set, when
nonempty, contains the root `(0,0)` and is reachable from it. -/
def ConnInv (w h : ℤ) (g : Grid) : Prop :=
  ((Vset w h g).Nonempty → (0, 0) ∈ Vset w h g) ∧
  ∀ c ∈ Vset w h g, ReachP w h g (0, 0) c

/-- Tree-count invariant: passages are one fewer than visited cells (or the
grid is untouched). -/
def EdgeInv (w h : ℤ) (g : Grid) : Prop :=
  edgeCount w h g + 1 = (Vset w h g).card ∨ Vset w h g = ∅

/-- Postcondition of a `carvePassagesFrom` call at `(x, z)` relating entry grid
`g` and result grid `g'`. -/
structure CarvePost (w h : ℤ) (g g' : Grid) (x z : ℤ) : Prop where
  grow : MaskGrow g g'
  symm : SymmAdj w h g'
  conn : ConnInv w h g'
  edge : EdgeInv w h g'
  selfMem : (x, z) ∈ Vset w h g' ∨ Vset w h g' = ∅
  closedSelf : ClosedCell w h g' (x, z)
  closedNew : ∀ c ∈ Vset w h g', c ∉ Vset w h g → c ≠ (x, z) →
    ClosedCell w h g' c

/-- Invariant carried along the direction fold of one `carvePassagesFrom`
call: `g` is the grid at entry of the call, `gc` the current fold state. -/
structure FoldInv (w h : ℤ) (g : Grid) (x z : ℤ) (gc : Grid) : Prop where
  grow : MaskGrow g gc
  unv : unvis w h gc ≤ unvis w h g
  symm : SymmAdj w h gc
  conn : ConnInv w h gc
  edge : EdgeInv w h gc
  emptyRoot : Vset w h gc = ∅ → (x, z) = (0, 0)
  memSelf : Vset w h gc ≠ ∅ → (x, z) ∈ Vset w h gc
  closedNew : ∀ c ∈ Vset w h gc, c ∉ Vset w h g → c ≠ (x, z) →
    ClosedCell w h gc c

/-- Integer range `[lo, lo + n)` as a list. -/
def intRange (lo : ℤ) (n : ℕ) : List ℤ :=
  (List.range n).map (fun (i : ℕ) => lo + (i : ℤ))

/-- A wall segment `WallSegment.fromCoords(x1, z1, x2, z2)` (`Maze.ts`). -/
structure Seg where
  x1 : ℤ
  z1 : ℤ
  x2 : ℤ
  z2 : ℤ
deriving DecidableEq, Repr

/-- One run-length scan of `Maze.createWallSegments` along one grid line.
`opn j` is the source's `hasPassage` at position `j` (for `j < len`); the scan
index runs over `0, …, len` inclusive, exactly as the source loop
`for (j = 0; j <= len; j++)`, and the final flush mirrors the source's
post-loop `if (start !== null) push(start, len)`. -/
def scanLine (opn : ℤ → Bool) (len : ℤ) : List (ℤ × ℤ) :=
  let step : Option ℤ × List (ℤ × ℤ) → ℤ → Option ℤ × List (ℤ × ℤ) :=
    fun st j =>
      if j < len ∧ opn j = true then
        match st.1 with
        | some a => (none, st.2 ++ [(a, j)])
        | none => st
      else
        match st.1 with
        | some _ => st
        | none => (some j, st.2)
  let fin := (intRange 0 (len.toNat + 1)).foldl step (none, [])
  match fin.1 with
  | some a => fin.2 ++ [(a, len)]
  | none => fin.2

/-- The loop body of `scanLine` as a standalone function, for reasoning about
the fold one index at a time. -/
def scanStep (opn : ℤ → Bool) (len : ℤ)
    (st : Option ℤ × List (ℤ × ℤ)) (j : ℤ) : Option ℤ × List (ℤ × ℤ) :=
  if j < len ∧ opn j = true then
    match st.1 with
    | some a => (none, st.2 ++ [(a, j)])
    | none => st
  else
    match st.1 with
    | some _ => st
    | none => (some j, st.2)

/-- Invariant of the `scanLine` fold after the indices below `K` have been
processed: the open start (if any) is a left-maximal walled stretch reaching
`K`, the emitted pairs are exactly the already-flushed maximal walled runs,
and the output is strictly ordered. -/
def ScanInv (opn : ℤ → Bool) (len K : ℤ)
    (fin : Option ℤ × List (ℤ × ℤ)) : Prop :=
  (∀ a, fin.1 = some a → 0 ≤ a ∧ a < K ∧
      (∀ j, a ≤ j → j < K → ¬(j < len ∧ opn j = true)) ∧
      (a = 0 ∨ opn (a - 1) = true)) ∧
  (fin.1 = none → (K = 0 ∨ (K - 1 < len ∧ opn (K - 1) = true))) ∧
  (∀ a b, (a, b) ∈ fin.2 ↔ (0 ≤ a ∧ a < b ∧ b < K ∧ b < len ∧
      opn b = true ∧ (∀ j, a ≤ j → j < b → opn j = false) ∧
      (a = 0 ∨ opn (a - 1) = true))) ∧
  (∀ a, fin.1 = some a → ∀ p ∈ fin.2, p.2 < a) ∧
  List.Pairwise (fun p q : ℤ × ℤ => p.2 < q.1) fin.2

/-- Passage test across the vertical grid line `x = i` at depth `j`:
`(grid[j][i-1] & East) !== 0 || (grid[j][i] & West) !== 0` (`Maze.ts`). -/
def vOpen (g : Grid) (i j : ℤ) : Bool :=
  hasDir (g (i - 1) j) .east || hasDir (g i j) .west

/-- Passage test across the horizontal grid line `z = j` at offset `i`:
`(grid[j-1][i] & South) !== 0 || (grid[j][i] & North) !== 0` (`Maze.ts`). -/
def hOpen (g : Grid) (i j : ℤ) : Bool :=
  hasDir (g i (j - 1)) .south || hasDir (g i j) .north

/-- `Maze.createWallSegments` (current revision): four boundary segments, then
run-length-merged internal vertical and horizontal wall segments. -/
def createWallSegments (w h : ℤ) (g : Grid) : List Seg :=
  [⟨0, 0, 0, h⟩, ⟨w, 0, w, h⟩, ⟨0, 0, w, 0⟩, ⟨0, h, w, h⟩] ++
  (intRange 1 (w - 1).toNat).flatMap
    (fun i => (scanLine (fun j => vOpen g i j) h).map (fun ab => ⟨i, ab.1, i, ab.2⟩)) ++
  (intRange 1 (h - 1).toNat).flatMap
    (fun j => (scanLine (fun i => hOpen g i j) w).map (fun ab => ⟨ab.1, j, ab.2, j⟩))

/-- A maximal contiguous walled run of the vertical line `x = i`: positions
`[a, b)` are all walled and the run extends neither upward nor downward. -/
def IsMaxRunV (g : Grid) (h i a b : ℤ) : Prop :=
  a < b ∧ 0 ≤ a ∧ b ≤ h ∧
  (∀ j, a ≤ j → j < b → vOpen g i j = false) ∧
  (a = 0 ∨ vOpen g i (a - 1) = true) ∧
  (b = h ∨ vOpen g i b = true)

/-- A maximal contiguous walled run of the horizontal line `z = j`. -/
def IsMaxRunH (g : Grid) (w j a b : ℤ) : Prop :=
  a < b ∧ 0 ≤ a ∧ b ≤ w ∧
  (∀ i, a ≤ i → i < b → hOpen g i j = false) ∧
  (a = 0 ∨ hOpen g (a - 1) j = true) ∧
  (b = w ∨ hOpen g b j = true)

/-- `Maze.walk` of the earlier hunt-and-kill revision (`Maze.ts`, first class):
try the given shuffled directions in order; the first in-bounds unvisited
neighbor is connected on both sides and returned. -/
def walk (w h : ℤ) (g : Grid) (x y : ℤ) : List Dir → Option ((ℤ × ℤ) × Grid)
  | [] => none
  | d :: rest =>
      let xp := x + dx d
      let yp := y + dz d
      if 0 ≤ xp ∧ 0 ≤ yp ∧ yp < h ∧ xp < w ∧ g xp yp = 0 then
        some ((xp, yp), carveWrite g x y d xp yp)
      else walk w h g x y rest

/-- The candidate list built by `Maze.hunt` for an unvisited cell `(x, y)`:
a direction is pushed when the scanned neighbor is in-bounds and visited.
Note the scan pairs North with `grid[y+1][x]` and South with `grid[y-1][x]`,
while `dz` maps North to `-1` and South to `+1`. -/
def huntCandidates (w h : ℤ) (g : Grid) (x y : ℤ) : List Dir :=
  (if y + 1 < h ∧ g x (y + 1) ≠ 0 then [Dir.north] else []) ++
  (if 0 < y ∧ g x (y - 1) ≠ 0 then [Dir.south] else []) ++
  (if x + 1 < w ∧ g (x + 1) y ≠ 0 then [Dir.east] else []) ++
  (if 0 < x ∧ g (x - 1) y ≠ 0 then [Dir.west] else [])

/-- Scan tail of `Maze.hunt`: raster-scan the listed cells; at the first
unvisited cell with candidates, draw `rnd t` (modelling
`Math.floor(Math.random() * neighbors.length)`, always in range in the
source) and connect along the drawn direction's `dx`/`dz` delta if that
target is in-bounds, otherwise warn and keep scanning. -/
def huntGo (w h : ℤ) (g : Grid) (rnd : ℕ → ℕ) (t : ℕ) :
    List (ℤ × ℤ) → Option ((ℤ × ℤ) × Grid)
  | [] => none
  | (x, y) :: rest =>
      if g x y ≠ 0 then huntGo w h g rnd t rest
      else
        match huntCandidates w h g x y with
        | [] => huntGo w h g rnd t rest
        | c :: cs =>
            let d := (c :: cs).getD (rnd t) Dir.north
            let xp := x + dx d
            let yp := y + dz d
            if 0 ≤ yp ∧ yp < h ∧ 0 ≤ xp ∧ xp < w then
              some ((x, y), carveWrite g x y d xp yp)
            else huntGo w h g rnd (t + 1) rest

/-- `Maze.hunt` of the earlier hunt-and-kill revision: raster order is
`y` outer then `x` inner. -/
def hunt (w h : ℤ) (g : Grid) (rnd : ℕ → ℕ) : Option ((ℤ × ℤ) × Grid) :=
  huntGo w h g rnd 0
    ((intRange 0 h.toNat).flatMap (fun y => (intRange 0 w.toNat).map (fun x => (x, y))))

/-- Transient A* node of `MazeRunner.ts` (current revision): the constructor's
fourth field is `f`, and every call site passes the heuristic value alone.
The parent pointer chain is modelled as the list `chain` of tiles from this
node back to the start. -/
structure ANode where
  tile : ℤ × ℤ
  g : ℕ
  f : ℕ
  chain : List (ℤ × ℤ)
deriving DecidableEq, Repr

/-- Manhattan-distance heuristic `MazeRunner.heuristic`. -/
def heuristic (a b : ℤ × ℤ) : ℕ :=
  (a.1 - b.1).natAbs + (a.2 - b.2).natAbs

/-- Modelled from the spec: `Maze.getNeighbors` is called by the pathfinder
(`MazeRunner.ts`) but its definition is absent from the provided sources.
Spec §4.5 and §6: neighbors are derived from the passage-grid bitmask — a
neighbor exists only where the bit for that direction is set, in at most 4
directions, with the deltas of `Directions.ts`.  The direction order follows
the enum order North, South, East, West. -/
def getNeighbors (g : Grid) (x z : ℤ) : List (ℤ × ℤ) :=
  dirList.filterMap
    (fun d => if hasDir (g x z) d then some (x + dx d, z + dz d) else none)

/-- Stable insert of a node into a list sorted by ascending `f`. -/
def insNode (n : ANode) : List ANode → List ANode
  | [] => [n]
  | m :: ms => if m.f ≤ n.f then m :: insNode n ms else n :: m :: ms

/-- Stable sort by ascending `f`, modelling the stable (ES2019)
`openList.sort((a, b) => a.f - b.f)`: insert left to right, each element going
after the already-placed elements of equal `f`. -/
def sortByF (l : List ANode) : List ANode :=
  l.foldl (fun acc n => insNode n acc) []

/-- One open/closed/allNodes state of `MazeRunner.getPathToTile`'s loop. -/
structure AState where
  opn : List ANode
  closed : List (ℤ × ℤ)
  nodes : (ℤ × ℤ) → Option ANode

/-- The inner neighbor loop of `MazeRunner.getPathToTile` (current revision):
for each neighbor not yet closed, build the node with `g = current.g + 1` and
`f = hCost` (the heuristic alone — the source passes `hCost` as the
constructor's `f` argument), and (re)insert when no entry exists or the new
`g` improves on the stored one. -/
def expandNeighbors (goal : ℤ × ℤ) (cur : ANode) (closed : List (ℤ × ℤ)) :
    List (ℤ × ℤ) → List ANode × ((ℤ × ℤ) → Option ANode) → List ANode × ((ℤ × ℤ) → Option ANode)
  | [], st => st
  | nb :: rest, st =>
      if nb ∈ closed then expandNeighbors goal cur closed rest st
      else
        let tg := cur.g + 1
        let nd : ANode := ⟨nb, tg, heuristic nb goal, nb :: cur.chain⟩
        match st.2 nb with
        | some ex =>
            if tg < ex.g then
              expandNeighbors goal cur closed rest
                (st.1 ++ [nd], fun c => if c = nb then some nd else st.2 c)
            else expandNeighbors goal cur closed rest st
        | none =>
            expandNeighbors goal cur closed rest
              (st.1 ++ [nd], fun c => if c = nb then some nd else st.2 c)

/-- The main loop of `MazeRunner.getPathToTile` (current revision): sort the
open list by stored `f`, shift the head, return the reversed parent chain on
reaching the goal, else close the tile and expand its maze neighbors.
`none` means the fuel ran out (the source loop just continues); `some none`
models the source's `null` (open list exhausted, no path). -/
def astarLoop (g : Grid) (goal : ℤ × ℤ) :
    ℕ → AState → Option (Option (List (ℤ × ℤ)))
  | 0, _ => none
  | fuel+1, st =>
      match sortByF st.opn with
      | [] => some none
      | cur :: rest =>
          if cur.tile = goal then some (some cur.chain.reverse)
          else
            let closed' := cur.tile :: st.closed
            let st' := expandNeighbors goal cur closed'
              (getNeighbors g cur.tile.1 cur.tile.2) (rest, st.nodes)
            astarLoop g goal fuel ⟨st'.1, closed', st'.2⟩

/-- `MazeRunner.getPathToTile(start, goal)` (current revision), with explicit
loop fuel; a `some` result certifies the fuel sufficed. -/
def getPathToTile (fuel : ℕ) (g : Grid) (start goal : ℤ × ℤ) :
    Option (Option (List (ℤ × ℤ))) :=
  let startNode : ANode := ⟨start, 0, heuristic start goal, [start]⟩
  astarLoop g goal fuel
    ⟨[startNode], [], fun c => if c = start then some startNode else none⟩

/-- Passage-adjacency test between two cells, for stating path validity. -/
def adjB (g : Grid) (a b : ℤ × ℤ) : Bool :=
  dirList.any (fun d => hasDir (g a.1 a.2) d && decide (b = (a.1 + dx d, a.2 + dz d)))

/-- Chain test: consecutive list entries are passage-adjacent. -/
def chainB (g : Grid) : List (ℤ × ℤ) → Bool
  | [] => true
  | [_] => true
  | a :: b :: rest => adjB g a b && chainB g (b :: rest)

/-- Executable test that `p` is a walk from `s` to `t` along carved passages. -/
def isWalkB (g : Grid) (s t : ℤ × ℤ) (p : List (ℤ × ℤ)) : Bool :=
  decide (p.head? = some s) && decide (p.getLast? = some t) && chainB g p

/-- `d` is the shortest-path distance from `s` to `t` in the passage graph of
`g`: some walk has `d` edges and no walk has fewer. -/
def IsShortestDist (g : Grid) (s t : ℤ × ℤ) (d : ℕ) : Prop :=
  (∃ p, isWalkB g s t p = true ∧ p.length = d + 1) ∧
  ∀ p, isWalkB g s t p = true → d + 1 ≤ p.length

/-- World-space vector (three.js `Vector3`), modelled over `ℚ`. -/
structure Vec3 where
  x : ℚ
  y : ℚ
  z : ℚ
deriving DecidableEq

/-- Axis-aligned box (three.js `Box3`). -/
structure Box3 where
  bmin : Vec3
  bmax : Vec3
deriving DecidableEq

/-- three.js `Box3.intersectsBox`: closed-boundary overlap on all three axes
(touching boxes intersect). -/
def intersectsBox (a b : Box3) : Bool :=
  !(decide (b.bmax.x < a.bmin.x) || decide (b.bmin.x > a.bmax.x) ||
    decide (b.bmax.y < a.bmin.y) || decide (b.bmin.y > a.bmax.y) ||
    decide (b.bmax.z < a.bmin.z) || decide (b.bmin.z > a.bmax.z))

/-- three.js `Box3.getCenter`. -/
def boxCenter (b : Box3) : Vec3 :=
  ⟨(b.bmin.x + b.bmax.x) / 2, (b.bmin.y + b.bmax.y) / 2, (b.bmin.z + b.bmax.z) / 2⟩

/-- A collision record `{ normal, depth }` (`Types.ts` `ICollision`). -/
structure Collision where
  normal : Vec3
  depth : ℚ
deriving DecidableEq

/-- The per-wall collision computation of `Supervisor.willCollide` (current
revision): overlaps along X and Z, the axis with the strictly smaller overlap
is chosen (ties fall to Z), the normal sign is `-1` when the entity center is
strictly below the wall center on that axis and `+1` otherwise, and the depth
is the chosen overlap. -/
def wallCollision (playerBox wall : Box3) : Collision :=
  let playerCenter := boxCenter playerBox
  let wallCenter := boxCenter wall
  let overlapX := min playerBox.bmax.x wall.bmax.x - max playerBox.bmin.x wall.bmin.x
  let overlapZ := min playerBox.bmax.z wall.bmax.z - max playerBox.bmin.z wall.bmin.z
  if overlapX < overlapZ then
    ⟨⟨if playerCenter.x < wallCenter.x then -1 else 1, 0, 0⟩, overlapX⟩
  else
    ⟨⟨0, 0, if playerCenter.z < wallCenter.z then -1 else 1⟩, overlapZ⟩

/-- `Supervisor.willCollide` (current revision), factored over the candidate
entity box and the nearby collider list: a ground collision when the box dips
below `y = 0`, then one collision per intersecting nearby wall, in order. -/
def willCollide (playerBox : Box3) (walls : List Box3) : List Collision :=
  walls.foldl
    (fun acc wall =>
      if intersectsBox playerBox wall then acc ++ [wallCollision playerBox wall] else acc)
    (if playerBox.bmin.y < 0 then [⟨⟨0, 1, 0⟩, -playerBox.bmin.y⟩] else [])

/-- `Player.getBoundingBoxAt`: the cube of side `size` centered at `p`. -/
def getBoundingBoxAt (size : ℚ) (p : Vec3) : Box3 :=
  ⟨⟨p.x - size / 2, p.y - size / 2, p.z - size / 2⟩,
   ⟨p.x + size / 2, p.y + size / 2, p.z + size / 2⟩⟩

/-- Inclusive integer interval `[lo, hi]` as a list (empty when `hi < lo`),
modelling `for (g = lo; g <= hi; g++)`. -/
def intRangeIcc (lo hi : ℤ) : List ℤ :=
  if lo ≤ hi then intRange lo (hi + 1 - lo).toNat else []

/-- The clamped bucket index range of the spatial queries (`Maze.ts`):
`max(0, ⌊lo / cellSize⌋)` up to `min(limit - 1, ⌊hi / cellSize⌋)` inclusive. -/
def gridIdxRange (cellSize : ℚ) (limit : ℤ) (lo hi : ℚ) : List ℤ :=
  intRangeIcc (max 0 ⌊lo / cellSize⌋) (min (limit - 1) ⌊hi / cellSize⌋)

/-- The `(gridZ, gridX)` pairs visited by `getNearbyWallColliders` /
`getNearbyPellets`: `gridZ` outer, `gridX` inner. -/
def nearbyCellIdx (width height : ℤ) (cellSize : ℚ) (pos : Vec3) (size : ℚ) :
    List (ℤ × ℤ) :=
  let half := size / 2
  (gridIdxRange cellSize height (pos.z - half) (pos.z + half)).flatMap
    (fun gz => (gridIdxRange cellSize width (pos.x - half) (pos.x + half)).map
      (fun gx => (gz, gx)))

/-- `Maze.getNearbyWallColliders`: concatenate the wall bucket lists of every
cell in the clamped index range (`bkt gz gx` models `wallLists[gridZ][gridX]`). -/
def getNearbyWallColliders (width height : ℤ) (cellSize : ℚ)
    (bkt : ℤ → ℤ → List Box3) (pos : Vec3) (size : ℚ) : List Box3 :=
  (nearbyCellIdx width height cellSize pos size).flatMap (fun p => bkt p.1 p.2)

/-- A pellet mesh handle; `spawnPellets` gives every pellet a distinct cell
center position, so reference identity is modelled by the position. -/
structure PelletM where
  px : ℚ
  pz : ℚ
deriving DecidableEq

/-- `Maze.getNearbyPellets`: concatenate the pellet bucket lists of every cell
in the clamped index range (each pellet mesh carries its collider sphere). -/
def getNearbyPellets (width height : ℤ) (cellSize : ℚ)
    (bkt : ℤ → ℤ → List PelletM) (pos : Vec3) (size : ℚ) : List PelletM :=
  (nearbyCellIdx width height cellSize pos size).flatMap (fun p => bkt p.1 p.2)

/-- Pellet-system state: the visual group's children and the
`pelletLists[z][x]` buckets. -/
structure PelletState where
  group : List PelletM
  lists : List (List (List PelletM))
deriving DecidableEq

/-- Remove the first occurrence of an element (three.js `Group.remove`, and
`indexOf`/`splice(idx, 1)` on a bucket). -/
def removeFirst : List PelletM → PelletM → List PelletM
  | [], _ => []
  | x :: xs, m => if x = m then xs else x :: removeFirst xs m

/-- JavaScript array read `l[i]`: `undefined` (here `none`) when out of range. -/
def jsGet {α : Type} (l : List α) (i : ℤ) : Option α :=
  if i < 0 then none else l.get? i.toNat

/-- JavaScript array write `l[i] = v` at a valid index. -/
def jsSet {α : Type} (l : List α) (i : ℤ) (v : α) : List α :=
  l.set i.toNat v

/-- `Maze.spawnPellets`: one pellet at each cell center, placed in that cell's
bucket and in the visual group. -/
def spawnPellets (w h : ℤ) (cellSize : ℚ) : PelletState :=
  { group :=
      (intRange 0 w.toNat).flatMap (fun i => (intRange 0 h.toNat).map
        (fun j => ⟨((i : ℚ) + 1/2) * cellSize, ((j : ℚ) + 1/2) * cellSize⟩))
    lists :=
      (intRange 0 h.toNat).map (fun j => (intRange 0 w.toNat).map
        (fun i => [⟨((i : ℚ) + 1/2) * cellSize, ((j : ℚ) + 1/2) * cellSize⟩])) }

/-- `Maze.removePellet` (current revision): remove the mesh from the group,
recompute its bucket indices from its position, and splice it out of the
bucket when present.  `none` models a thrown `TypeError`: reading
`pelletLists[gridZ]` or its `[gridX]` entry out of range yields `undefined`,
and the subsequent member access throws. -/
def removePellet (cellSize : ℚ) (s : PelletState) (m : PelletM) :
    Option PelletState :=
  let group' := removeFirst s.group m
  let gx := ⌊m.px / cellSize⌋
  let gz := ⌊m.pz / cellSize⌋
  match jsGet s.lists gz with
  | none => none
  | some row =>
      match jsGet row gx with
      | none => none
      | some cell =>
          some { group := group',
                 lists := jsSet s.lists gz (jsSet row gx (removeFirst cell m)) }

/-- Total number of live pellets over all buckets. -/
def pelletCount (s : PelletState) : ℕ :=
  (s.lists.map (fun row => (row.map List.length).sum)).sum

/-- `wallThickness`-extruded collider box of one wall segment, as produced by
`Maze.generateMazeMesh`: the `BoxGeometry` placed at the segment midline gives
the axis-aligned box spanning the extruded extents, with `y ∈ [0, wallHeight]`
(`Box3.setFromObject` recovers exactly these extents). -/
def wallBoxFor (cellSize wallHeight : ℚ) (s : Seg) : Box3 :=
  let t := cellSize * (1/10)
  if s.x1 = s.x2 then
    let x := (s.x1 : ℚ) * cellSize
    let z1 := (min s.z1 s.z2 : ℤ) * cellSize
    let z2 := (max s.z1 s.z2 : ℤ) * cellSize
    ⟨⟨x - t/2, 0, z1 - t/2⟩, ⟨x + t/2, wallHeight, z2 + t/2⟩⟩
  else
    let z := (s.z1 : ℚ) * cellSize
    let x1 := (min s.x1 s.x2 : ℤ) * cellSize
    let x2 := (max s.x1 s.x2 : ℤ) * cellSize
    ⟨⟨x1 - t/2, 0, z - t/2⟩, ⟨x2 + t/2, wallHeight, z + t/2⟩⟩

/-- Append a box to the bucket at `(z, x)` (`wallLists[k][i].push(box)`). -/
def bktPush (bkt : ℤ → ℤ → List Box3) (z x : ℤ) (b : Box3) : ℤ → ℤ → List Box3 :=
  fun a c => if a = z ∧ c = x then bkt a c ++ [b] else bkt a c

/-- Bucket updates of one segment in `Maze.populateWallLists`: a vertical
segment at `x = i` is pushed into the cells on both sides for every depth step
of its span; symmetrically for horizontal segments. -/
def populateSeg (width height : ℤ) (sb : Seg × Box3) (bkt : ℤ → ℤ → List Box3) :
    ℤ → ℤ → List Box3 :=
  let s := sb.1
  if s.x1 = s.x2 then
    let i := s.x1
    (intRange (min s.z1 s.z2) (max s.z1 s.z2 - min s.z1 s.z2).toNat).foldl
      (fun b k =>
        let b1 := if 0 < i ∧ 0 ≤ k ∧ k < height then bktPush b k (i - 1) sb.2 else b
        if i < width ∧ 0 ≤ k ∧ k < height then bktPush b1 k i sb.2 else b1)
      bkt
  else if s.z1 = s.z2 then
    let j := s.z1
    (intRange (min s.x1 s.x2) (max s.x1 s.x2 - min s.x1 s.x2).toNat).foldl
      (fun b k =>
        let b1 := if 0 < j ∧ 0 ≤ k ∧ k < width then bktPush b (j - 1) k sb.2 else b
        if j < height ∧ 0 ≤ k ∧ k < width then bktPush b1 j k sb.2 else b1)
      bkt
  else bkt

/-- `Maze.populateWallLists`: fold all segments (with their colliders, in
construction order) into the bucket map. -/
def populateWallLists (width height : ℤ) (segs : List Seg) (boxes : List Box3) :
    ℤ → ℤ → List Box3 :=
  (segs.zip boxes).foldl (fun b sb => populateSeg width height sb b) (fun _ _ => [])

/-- The wall data of a constructed maze over a given carved grid: segments,
collider boxes in segment order, and the spatial buckets. -/
def mazeWallData (w h : ℤ) (cellSize wallHeight : ℚ) (g : Grid) :
    List Seg × List Box3 × (ℤ → ℤ → List Box3) :=
  let segs := createWallSegments w h g
  let boxes := segs.map (wallBoxFor cellSize wallHeight)
  (segs, boxes, populateWallLists w h segs boxes)

/-- `Supervisor.willCollide(position)` as composed in the source: the candidate
box is taken at the queried position, but the nearby colliders are looked up
around the player's current position. -/
def supervisorWillCollide (w h : ℤ) (cellSize wallHeight : ℚ) (g : Grid)
    (playerSize : ℚ) (currentPos candidate : Vec3) : List Collision :=
  let data := mazeWallData w h cellSize wallHeight g
  willCollide (getBoundingBoxAt playerSize candidate)
    (getNearbyWallColliders w h cellSize data.2.2 currentPos playerSize)

/-- JavaScript error kinds relevant to `Maze` construction. -/
inductive JsErr : Type
  | rangeErr
  | typeErr
deriving DecidableEq, Repr

/-- Grid rows as stored: `grid[z][x]`, list-of-lists model with JavaScript
out-of-bounds semantics. -/
abbrev LGrid := List (List ℕ)

/-- One row `Array(width).fill(0)`: a negative length throws `RangeError`. -/
def mkRow (width : ℤ) : Except JsErr (List ℕ) :=
  if width < 0 then .error .rangeErr else .ok (List.replicate width.toNat 0)

/-- `Array.from(Array(height), _ => Array(width).fill(0))`: a negative
`height` throws immediately; otherwise the row builder runs `height` times. -/
def mkGrid (width height : ℤ) : Except JsErr LGrid :=
  if height < 0 then .error .rangeErr
  else (List.range height.toNat).mapM (fun _ => mkRow width)

/-- Checked cell read `grid[z][x]` used after a bounds guard has passed:
a missing row is a thrown `TypeError`; a missing entry of an existing row is
JavaScript `undefined`, modelled as value `none`. -/
def cellRead (g : LGrid) (z x : ℤ) : Except JsErr (Option ℕ) :=
  match jsGet g z with
  | none => .error .typeErr
  | some row => .ok (jsGet row x)

/-- Checked cell update `grid[z][x] |= bit` (reads then writes the entry;
the source only performs this at indices inside the allocated arrays). -/
def cellOr (g : LGrid) (z x : ℤ) (bit : ℕ) : Except JsErr LGrid :=
  match jsGet g z with
  | none => .error .typeErr
  | some row =>
      let old := (jsGet row x).getD 0
      .ok (jsSet g z (jsSet row x (old ||| bit)))

/-- Checked `Maze.carvePassagesFrom` with JavaScript array semantics: the
bounds guard uses the constructor's `width`/`height` fields and
short-circuits before any array access. -/
def carveC (w h : ℤ) (ρ : ℕ → List Dir) :
    ℕ → LGrid → ℤ → ℤ → ℕ → Except JsErr (LGrid × ℕ)
  | 0, g, _, _, k => .ok (g, k)
  | fuel+1, g, x, z, k =>
      (ρ k).foldlM
        (fun gk d => do
          let nx := x + dx d
          let nz := z + dz d
          if 0 ≤ nx ∧ nx < w ∧ 0 ≤ nz ∧ nz < h then
            match ← cellRead gk.1 nz nx with
            | some 0 => do
                let g1 ← cellOr gk.1 z x (dirBit d)
                let g2 ← cellOr g1 nz nx (dirBit (opposite d))
                carveC w h ρ fuel g2 nx nz gk.2
            | _ => pure gk
          else pure gk)
        (g, k + 1)

/-- Checked `Maze.createWallSegments`: reads `grid[0].length` first —
a `TypeError` when the grid has no rows — then scans with checked reads.
The scan logic is the run-length merge of the pure model. -/
def createWallSegmentsC (g : LGrid) : Except JsErr (List Seg) := do
  match g.head? with
  | none => .error .typeErr
  | some row0 =>
      let w : ℤ := row0.length
      let h : ℤ := g.length
      let rd : ℤ → ℤ → ℕ := fun x z =>
        ((jsGet g z).bind (fun row => jsGet row x)).getD 0
      .ok (createWallSegments w h rd)

/-- Checked `Maze.populateWallLists`: buckets hold segment indices (the pushed
collider objects are pure data and cannot throw); all pushes are guarded as in
the source. -/
def populateWallListsC (width height : ℤ) (segs : List Seg) :
    Except JsErr (List (List (List ℕ))) := do
  let empty ← (if height < 0 then .error JsErr.rangeErr
               else (List.range height.toNat).mapM (fun _ =>
                 if width < 0 then .error JsErr.rangeErr
                 else .ok (List.replicate width.toNat ([] : List ℕ))))
  ((segs.zip (List.range segs.length)).foldlM (fun (b : List (List (List ℕ))) si => do
      let s : Seg := si.1
      let idx : ℕ := si.2
      if s.x1 = s.x2 then
        (intRange (min s.z1 s.z2) (max s.z1 s.z2 - min s.z1 s.z2).toNat).foldlM
          (fun (bb : List (List (List ℕ))) k => do
            let bb1 ←
              if 0 < s.x1 ∧ 0 ≤ k ∧ k < height then
                match jsGet bb k with
                | none => .error JsErr.typeErr
                | some row => .ok (jsSet bb k (jsSet row (s.x1 - 1)
                    (((jsGet row (s.x1 - 1)).getD []) ++ [idx])))
              else .ok bb
            if s.x1 < width ∧ 0 ≤ k ∧ k < height then
              match jsGet bb1 k with
              | none => .error JsErr.typeErr
              | some row => .ok (jsSet bb1 k (jsSet row s.x1
                  (((jsGet row s.x1).getD []) ++ [idx])))
            else .ok bb1)
          b
      else if s.z1 = s.z2 then
        (intRange (min s.x1 s.x2) (max s.x1 s.x2 - min s.x1 s.x2).toNat).foldlM
          (fun (bb : List (List (List ℕ))) k => do
            let bb1 ←
              if 0 < s.z1 ∧ 0 ≤ k ∧ k < width then
                match jsGet bb (s.z1 - 1) with
                | none => .error JsErr.typeErr
                | some row => .ok (jsSet bb (s.z1 - 1) (jsSet row k
                    (((jsGet row k).getD []) ++ [idx])))
              else .ok bb
            if s.z1 < height ∧ 0 ≤ k ∧ k < width then
              match jsGet bb1 s.z1 with
              | none => .error JsErr.typeErr
              | some row => .ok (jsSet bb1 s.z1 (jsSet row k
                  (((jsGet row k).getD []) ++ [idx])))
            else .ok bb1)
          b
      else .ok b)
    empty)

/-- The `new Maze(width, height, cellSize, wallHeight)` constructor (current
revision) with JavaScript error semantics: allocate the grid and the pellet
buckets, then `generateMazeMesh = generateMaze; createWallSegments;`
(geometry building is pure) `populateWallLists`.  The constructor performs no
dimension validation of its own; every failure is an incidental array error. -/
def mazeConstructC (width height : ℤ) (ρ : ℕ → List Dir) :
    Except JsErr (LGrid × List Seg × List (List (List ℕ))) := do
  let grid ← mkGrid width height
  let _pellets ← mkGrid width height
  let carved ← carveC width height ρ (width.toNat * height.toNat + 1) grid 0 0 0
  let segs ← createWallSegmentsC carved.1
  let buckets ← populateWallListsC width height segs
  pure (carved.1, segs, buckets)

/-- The all-zero grid. -/
def zeroGrid : Grid := fun _ _ => 0

/-- Concrete 3×3 symmetric passage grid on which the pathfinder returns a
suboptimal route (passages: a left column + bottom hook reaching the goal
column the long way, and a short route over the top; cell `(2,2)` isolated). -/
def astarCexGrid : Grid := fun x z =>
  if x = 0 ∧ z = 0 then 6 else if x = 0 ∧ z = 1 then 3 else if x = 0 ∧ z = 2 then 5
  else if x = 1 ∧ z = 0 then 10 else if x = 1 ∧ z = 1 then 7 else if x = 1 ∧ z = 2 then 9
  else if x = 2 ∧ z = 0 then 2 else if x = 2 ∧ z = 1 then 9 else 0

/-- The 6-edge path the embedded pathfinder returns on `astarCexGrid`. -/
def astarCexPath : List (ℤ × ℤ) :=
  [(0, 2), (0, 1), (0, 0), (1, 0), (1, 1), (2, 1), (2, 0)]

/-- A 4-edge walk from `(0,2)` to `(2,0)` in `astarCexGrid`. -/
def astarCexShortWalk : List (ℤ × ℤ) :=
  [(0, 2), (1, 2), (1, 1), (2, 1), (2, 0)]

/-- The fully carved 2×1 grid: one East–West passage. -/
def ewGrid : Grid := fun x z =>
  if x = 0 ∧ z = 0 then 4 else if x = 1 ∧ z = 0 then 8 else 0

/-- Mid-generation state of the hunt-and-kill revision on a 1×4 column:
two `walk` steps southward from `(0,1)` (cells `(0,1)–(0,2)–(0,3)` carved,
`(0,0)` unvisited). -/
def huntCexGrid1 : Grid := carveWrite zeroGrid 0 1 .south 0 2

/-- Second walk step: the grid on which `walk` fails and `hunt` is invoked. -/
def huntCexGrid2 : Grid := carveWrite huntCexGrid1 0 2 .south 0 3

/-- Concrete 2×2 spanning-tree grid used for the collision-query instance:
passages `(0,0)–(1,0)`, `(0,0)–(0,1)`, `(0,1)–(1,1)`. -/
def c10Grid : Grid := fun x z =>
  if x = 0 ∧ z = 0 then 6 else if x = 1 ∧ z = 0 then 8
  else if x = 0 ∧ z = 1 then 5 else if x = 1 ∧ z = 1 then 8 else 0

/-- A constant direction-permutation stream (one possible shuffle outcome). -/
def rhoConst : ℕ → List Dir := fun _ => dirList

/-- The spec §8 example entity box: cube of half-size 1 centered `(5,1,5)`. -/
def c4Box : Box3 := getBoundingBoxAt 2 ⟨5, 1, 5⟩

/-- The spec §8 example wall collider: `x ∈ [5.4, 5.6]`, `z ∈ [0, 10]`. -/
def c4Wall : Box3 := ⟨⟨27/5, 0, 0⟩, ⟨28/5, 2, 10⟩⟩

theorem dirBit_eq_two_pow (d : Dir) : dirBit d = 2 ^ dirIdx d := by
  cases d <;> rfl

theorem hasDir_iff_testBit (m : ℕ) (d : Dir) :
    hasDir m d = true ↔ m.testBit (dirIdx d) = true := by
  unfold hasDir
  rw [dirBit_eq_two_pow, Nat.and_two_pow]
  cases hb : m.testBit (dirIdx d) <;> simp [hb]

theorem hasDir_or_iff (a b : ℕ) (d : Dir) :
    hasDir (a ||| b) d = true ↔ (hasDir a d = true ∨ hasDir b d = true) := by
  rw [hasDir_iff_testBit, hasDir_iff_testBit, hasDir_iff_testBit, Nat.testBit_or,
    Bool.or_eq_true]

theorem hasDir_zero (d : Dir) : hasDir 0 d = false := by
  cases d <;> rfl

theorem ne_zero_of_hasDir {m : ℕ} {d : Dir} (h : hasDir m d = true) : m ≠ 0 := by
  intro h0
  rw [h0, hasDir_zero] at h
  exact Bool.false_ne_true h

theorem dirIdx_inj {d e : Dir} (h : dirIdx d = dirIdx e) : d = e := by
  cases d <;> cases e <;> first | rfl | simp [dirIdx] at h

theorem hasDir_dirBit_iff (d e : Dir) : hasDir (dirBit e) d = true ↔ d = e := by
  rw [hasDir_iff_testBit, dirBit_eq_two_pow, Nat.testBit_two_pow]
  constructor
  · intro hx
    exact (dirIdx_inj (of_decide_eq_true hx)).symm
  · intro hx
    subst hx
    exact decide_eq_true rfl

theorem exists_testBit_of_ne_zero {m : ℕ} (h : m ≠ 0) : ∃ i, m.testBit i = true := by
  by_contra hc
  push_neg at hc
  refine h (Nat.eq_of_testBit_eq fun i => ?_)
  rw [Nat.zero_testBit]
  exact Bool.eq_false_iff.mpr (hc i)

theorem opposite_opposite (d : Dir) : opposite (opposite d) = d := by
  cases d <;> rfl

theorem dx_opposite (d : Dir) : dx (opposite d) = -dx d := by
  cases d <;> rfl

theorem dz_opposite (d : Dir) : dz (opposite d) = -dz d := by
  cases d <;> rfl

theorem delta_ne (x z : ℤ) (d : Dir) : (x + dx d, z + dz d) ≠ (x, z) := by
  cases d <;>
    (intro hc; rw [Prod.mk.injEq] at hc; simp only [dx, dz] at hc; omega)

theorem mem_dirList (d : Dir) : d ∈ dirList := by
  cases d <;> simp [dirList]

theorem symmAdjB_correct (w h : ℤ) (g : Grid) (hb : symmAdjB w h g = true) :
    SymmAdj w h g := by
  intro x z d hin hbit
  unfold symmAdjB at hb
  rw [List.all_eq_true] at hb
  obtain ⟨hx0, hxw, hz0, hzh⟩ := hin
  have hx : x.toNat ∈ List.range w.toNat := List.mem_range.mpr (by omega)
  have h1 := hb _ hx
  rw [List.all_eq_true] at h1
  have hz : z.toNat ∈ List.range h.toNat := List.mem_range.mpr (by omega)
  have h2 := h1 _ hz
  rw [List.all_eq_true] at h2
  have h3 := h2 d (mem_dirList d)
  have hxx : ((x.toNat : ℤ)) = x := Int.toNat_of_nonneg hx0
  have hzz : ((z.toNat : ℤ)) = z := Int.toNat_of_nonneg hz0
  rw [hxx, hzz, hbit, Bool.not_true, Bool.false_or, Bool.and_eq_true,
    decide_eq_true_eq] at h3
  exact ⟨h3.1, h3.2⟩

theorem adjB_heuristic_le (g : Grid) (a b t : ℤ × ℤ) (h : adjB g a b = true) :
    heuristic a t ≤ heuristic b t + 1 := by
  unfold adjB at h
  rw [List.any_eq_true] at h
  obtain ⟨d, _, hd⟩ := h
  rw [Bool.and_eq_true, decide_eq_true_eq] at hd
  rw [hd.2]
  cases d <;> simp only [heuristic, dx, dz] <;> omega

theorem isWalkB_heuristic_le (g : Grid) :
    ∀ (p : List (ℤ × ℤ)) (s t : ℤ × ℤ),
      isWalkB g s t p = true → heuristic s t + 1 ≤ p.length := by
  intro p
  induction p with
  | nil => intro s t h; simp [isWalkB] at h
  | cons a q ih =>
      intro s t h
      unfold isWalkB at h
      rw [Bool.and_eq_true, Bool.and_eq_true, decide_eq_true_eq,
        decide_eq_true_eq] at h
      obtain ⟨⟨hhead, hlast⟩, hchain⟩ := h
      have has : a = s := by simpa using hhead
      subst has
      cases q with
      | nil =>
          have hat : a = t := by simpa using hlast
          subst hat
          simp [heuristic]
      | cons b r =>
          rw [List.getLast?_cons_cons] at hlast
          have hchain' : adjB g a b = true ∧ chainB g (b :: r) = true := by
            simpa [chainB, Bool.and_eq_true] using hchain
          have hwalk : isWalkB g b t (b :: r) = true := by
            unfold isWalkB
            rw [Bool.and_eq_true, Bool.and_eq_true]
            exact ⟨⟨by simp, decide_eq_true hlast⟩, hchain'.2⟩
          have hb := ih b t hwalk
          have hstep := adjB_heuristic_le g a b t hchain'.1
          simp only [List.length_cons] at hb ⊢
          omega

/-- C1: the claim asserts that for every symmetric passage grid and connected
in-bounds start/goal, `getPathToTile(start, goal)` returns a path of shortest
length because the open list is popped in order of `f = g + h`.  The current
`MazeRunner.ts` stores only the heuristic in the node's `f` field (the
constructor's fourth argument receives `hCost`), so the open list is popped in
order of `h` alone, and on this concrete symmetric 3×3 grid the search from
`(0,2)` to `(2,0)` returns a 6-edge path although the shortest-path distance
is 4: the claim fails at this input. -/
theorem C1_pathfinder_returns_suboptimal_path :
    SymmAdj 3 3 astarCexGrid ∧
    getPathToTile 100 astarCexGrid (0, 2) (2, 0) = some (some astarCexPath) ∧
    astarCexPath.length = 7 ∧
    IsShortestDist astarCexGrid (0, 2) (2, 0) 4 := by
  refine ⟨symmAdjB_correct 3 3 astarCexGrid (by decide), by decide, by decide,
    ⟨astarCexShortWalk, by decide, by decide⟩, ?_⟩
  intro p hp
  have hle := isWalkB_heuristic_le astarCexGrid p (0, 2) (2, 0) hp
  have hh : heuristic ((0 : ℤ), (2 : ℤ)) ((2 : ℤ), (0 : ℤ)) = 4 := by decide
  omega

/-- C7: on the reachable hunt-and-kill state of a 1×4 column where cells
`(0,1)–(0,2)–(0,3)` are carved (two southward `walk` steps from `(0,1)`) and
the walk phase has failed, the claim requires `hunt` to connect the first
unvisited cell `(0,0)` — whose only visited neighbor `(0,1)` is in bounds —
to that visited neighbor and return `(0,0)`.  The code instead pairs the
scanned `grid[y+1][x]` neighbor with direction North while `dz(North) = -1`,
computes the out-of-bounds target `(0,-1)`, warns, skips the cell, and
returns `null` without carving anything. -/
theorem C7_hunt_skips_candidate_cell :
    (walk 1 4 zeroGrid 0 1 [Dir.south]).map Prod.fst = some (0, 2) ∧
    (walk 1 4 huntCexGrid1 0 2 [Dir.south]).map Prod.fst = some (0, 3) ∧
    huntCexGrid2 0 0 = 0 ∧
    (huntCexGrid2 0 1 ≠ 0 ∧ inB 1 4 0 1) ∧
    huntCandidates 1 4 huntCexGrid2 0 0 = [Dir.north] ∧
    hunt 1 4 huntCexGrid2 (fun _ => 0) = none := by
  exact ⟨rfl, rfl, rfl, ⟨by decide, by decide⟩, rfl, rfl⟩

theorem except_bind_error {α β : Type} (e : JsErr) (f : α → Except JsErr β) :
    (Except.error e >>= f) = Except.error e := rfl

theorem except_bind_ok {α β : Type} (a : α) (f : α → Except JsErr β) :
    (Except.ok a >>= f : Except JsErr β) = f a := rfl

theorem mkGrid_neg_height {w h : ℤ} (hh : h < 0) :
    mkGrid w h = Except.error JsErr.rangeErr := by
  unfold mkGrid
  rw [if_pos hh]

theorem mkGrid_neg_width {w h : ℤ} (hw : w < 0) (hh : 1 ≤ h) :
    mkGrid w h = Except.error JsErr.rangeErr := by
  unfold mkGrid
  rw [if_neg (by omega)]
  obtain ⟨n, hn⟩ : ∃ n, h.toNat = n + 1 := ⟨h.toNat - 1, by omega⟩
  rw [hn, List.range_succ_eq_map, List.mapM_cons]
  unfold mkRow
  rw [if_pos hw]
  rfl

theorem mkGrid_zero_height {w : ℤ} : mkGrid w 0 = Except.ok [] := by
  unfold mkGrid
  rw [if_neg (by omega)]
  rfl

theorem carveC_zero_height (w : ℤ) (ρ : ℕ → List Dir) (fuel : ℕ) (g : LGrid)
    (x z : ℤ) (k : ℕ) :
    carveC w 0 ρ (fuel + 1) g x z k = Except.ok (g, k + 1) := by
  show ((ρ k).foldlM _ (g, k + 1)) = Except.ok (g, k + 1)
  generalize ρ k = dirs
  generalize (g, k + 1) = gk
  induction dirs generalizing gk with
  | nil => rfl
  | cons d rest ih =>
      rw [List.foldlM_cons]
      have hcond : ¬(0 ≤ x + dx d ∧ x + dx d < w ∧ 0 ≤ z + dz d ∧ z + dz d < 0) := by
        omega
      rw [if_neg hcond]
      exact ih gk

/-- C8 (amended): `new Maze(width, height, …)` performs no validation; it
throws (an incidental array error) whenever `height ≤ 0`, or `width < 0` with
`height ≥ 1` — but not for `width = 0` (see the counterexample theorem). -/
theorem C8_construction_error_conditions (w h : ℤ) (ρ : ℕ → List Dir)
    (hcond : h ≤ 0 ∨ (w < 0 ∧ 1 ≤ h)) :
    (mazeConstructC w h ρ).isOk = false := by
  rcases hcond with hh | ⟨hw, hh⟩
  · rcases lt_or_eq_of_le hh with hlt | heq
    · unfold mazeConstructC
      rw [mkGrid_neg_height hlt, except_bind_error]
      rfl
    · subst heq
      unfold mazeConstructC
      rw [mkGrid_zero_height, except_bind_ok, except_bind_ok]
      have hfuel : w.toNat * (0 : ℤ).toNat + 1 = 0 + 1 := by simp
      rw [hfuel, carveC_zero_height, except_bind_ok]
      rfl
  · unfold mazeConstructC
    rw [mkGrid_neg_width hw hh, except_bind_error]
    rfl

/-- C8 witness for the amended theorem: `new Maze(3, 0, …)` throws. -/
theorem C8_construction_error_conditions_witness :
    (mazeConstructC 3 0 rhoConst).isOk = false :=
  C8_construction_error_conditions 3 0 rhoConst (Or.inl (by omega))

/-- C8 counterexample: the claim says every `width ≤ 0` or `height ≤ 0` fails
fast at construction, but `new Maze(0, 1, …)` runs to completion and produces
a (degenerate) maze object: no error is raised. -/
theorem C8_zero_width_constructs :
    (mazeConstructC 0 1 rhoConst).isOk = true := by decide

/-- C5 counterexample: on the fully carved 2×1 grid (one East–West passage)
the extractor emits the zero-length vertical segment `(1,1)–(1,1)`, which is
an emitted internal segment that is not a maximal contiguous walled run
(a run requires at least one walled unit position), contradicting the claim
that each emitted segment is such a run. -/
theorem C5_degenerate_segment_emitted :
    createWallSegments 2 1 ewGrid =
      [⟨0, 0, 0, 1⟩, ⟨2, 0, 2, 1⟩, ⟨0, 0, 2, 0⟩, ⟨0, 1, 2, 1⟩, ⟨1, 1, 1, 1⟩] ∧
    Seg.mk 1 1 1 1 ∈ createWallSegments 2 1 ewGrid ∧
    SymmAdj 2 1 ewGrid ∧
    ¬ IsMaxRunV ewGrid 1 1 1 1 := by
  refine ⟨by decide, by decide, symmAdjB_correct 2 1 ewGrid (by decide), ?_⟩
  intro hrun
  exact absurd hrun.1 (by omega)

theorem mem_cellsFin {w h : ℤ} {c : ℤ × ℤ} :
    c ∈ cellsFin w h ↔ inB w h c.1 c.2 := by
  unfold cellsFin inB
  rw [Finset.mem_product, Finset.mem_Icc, Finset.mem_Icc]
  omega

theorem setCell_self (g : Grid) (x z : ℤ) (v : ℕ) : setCell g x z v x z = v := by
  simp [setCell]

theorem setCell_ne (g : Grid) (x z : ℤ) (v : ℕ) {a b : ℤ}
    (hne : ¬(a = x ∧ b = z)) : setCell g x z v a b = g a b := by
  simp [setCell, hne]

theorem pair_ne_iff {a b x z : ℤ} : (a, b) ≠ (x, z) ↔ ¬(a = x ∧ b = z) := by
  rw [Ne, Prod.mk.injEq]

theorem carveWrite_self {g : Grid} {x z nx nz : ℤ} {d : Dir}
    (hne : (nx, nz) ≠ (x, z)) :
    carveWrite g x z d nx nz x z = g x z ||| dirBit d := by
  have hxz : ¬(x = nx ∧ z = nz) := by
    rw [pair_ne_iff] at hne
    intro hc
    exact hne ⟨hc.1.symm, hc.2.symm⟩
  unfold carveWrite
  rw [setCell_ne _ _ _ _ hxz, setCell_self]

theorem carveWrite_target {g : Grid} {x z nx nz : ℤ} {d : Dir}
    (hne : (nx, nz) ≠ (x, z)) :
    carveWrite g x z d nx nz nx nz = g nx nz ||| dirBit (opposite d) := by
  unfold carveWrite
  rw [setCell_self]
  rw [setCell_ne g x z _ (pair_ne_iff.mp hne)]

theorem carveWrite_other {g : Grid} {x z nx nz a b : ℤ} {d : Dir}
    (h1 : ¬(a = x ∧ b = z)) (h2 : ¬(a = nx ∧ b = nz)) :
    carveWrite g x z d nx nz a b = g a b := by
  unfold carveWrite
  rw [setCell_ne _ _ _ _ h2, setCell_ne _ _ _ _ h1]

theorem maskGrow_refl (g : Grid) : MaskGrow g g := fun _ _ _ hb => hb

theorem maskGrow_trans {g g' g'' : Grid} (h1 : MaskGrow g g') (h2 : MaskGrow g' g'') :
    MaskGrow g g'' := fun a b i hb => h2 a b i (h1 a b i hb)

theorem maskGrow_hasDir {g g' : Grid} (hg : MaskGrow g g') {a b : ℤ} {d : Dir}
    (hd : hasDir (g a b) d = true) : hasDir (g' a b) d = true := by
  rw [hasDir_iff_testBit] at hd ⊢
  exact hg a b _ hd

theorem maskGrow_ne_zero {g g' : Grid} (hg : MaskGrow g g') {a b : ℤ}
    (hz : g a b ≠ 0) : g' a b ≠ 0 := by
  obtain ⟨i, hi⟩ := exists_testBit_of_ne_zero hz
  intro h0
  have := hg a b i hi
  rw [h0, Nat.zero_testBit] at this
  exact Bool.false_ne_true this

theorem maskGrow_zero_rev {g g' : Grid} (hg : MaskGrow g g') {a b : ℤ}
    (hz : g' a b = 0) : g a b = 0 := by
  by_contra hc
  exact maskGrow_ne_zero hg hc hz

theorem maskGrow_Vset {w h : ℤ} {g g' : Grid} (hg : MaskGrow g g') :
    Vset w h g ⊆ Vset w h g' := by
  intro c hc
  rw [Vset, Finset.mem_filter] at hc ⊢
  exact ⟨hc.1, maskGrow_ne_zero hg hc.2⟩

theorem maskGrow_unvis_le {w h : ℤ} {g g' : Grid} (hg : MaskGrow g g') :
    unvis w h g' ≤ unvis w h g := by
  apply Finset.card_le_card
  intro c hc
  rw [Finset.mem_filter] at hc ⊢
  exact ⟨hc.1, maskGrow_zero_rev hg hc.2⟩

theorem maskGrow_passStep {w h : ℤ} {g g' : Grid} (hg : MaskGrow g g')
    {a b : ℤ × ℤ} (hs : passStep w h g a b) : passStep w h g' a b := by
  obtain ⟨hin, d, hd, hb⟩ := hs
  exact ⟨hin, d, maskGrow_hasDir hg hd, hb⟩

theorem maskGrow_ReachP {w h : ℤ} {g g' : Grid} (hg : MaskGrow g g')
    {a b : ℤ × ℤ} (hr : ReachP w h g a b) : ReachP w h g' a b :=
  Relation.ReflTransGen.mono (fun _ _ hs => maskGrow_passStep hg hs) hr

theorem maskGrow_ClosedCell {w h : ℤ} {g g' : Grid} (hg : MaskGrow g g')
    {c : ℤ × ℤ} (hc : ClosedCell w h g c) : ClosedCell w h g' c :=
  fun d hd => maskGrow_Vset hg (hc d hd)

theorem maskGrow_carveWrite (g : Grid) (x z nx nz : ℤ) (d : Dir) :
    MaskGrow g (carveWrite g x z d nx nz) := by
  intro a b i hb
  unfold carveWrite setCell
  by_cases h2 : a = nx ∧ b = nz
  · simp only [h2, if_pos, and_self, if_true]
    rw [Nat.testBit_or]
    by_cases h1 : nx = x ∧ nz = z
    · simp only [h1, and_self, if_true, if_pos]
      rw [Nat.testBit_or]
      rw [h2.1, h2.2, h1.1, h1.2] at hb
      simp [hb]
    · rw [if_neg h1]
      rw [h2.1, h2.2] at hb
      simp [hb]
  · rw [if_neg h2]
    by_cases h1 : a = x ∧ b = z
    · simp only [h1, and_self, if_true, if_pos]
      rw [Nat.testBit_or]
      rw [h1.1, h1.2] at hb
      simp [hb]
    · rw [if_neg h1]
      exact hb

theorem symmAdj_carveWrite {w h : ℤ} {g : Grid} {x z : ℤ} {d : Dir}
    (hs : SymmAdj w h g) (hcx : inB w h x z)
    (hnb : inB w h (x + dx d) (z + dz d))
    (hz0 : g (x + dx d) (z + dz d) = 0) :
    SymmAdj w h (carveWrite g x z d (x + dx d) (z + dz d)) := by
  have hne : ((x + dx d, z + dz d) : ℤ × ℤ) ≠ (x, z) := delta_ne x z d
  have hgrow := maskGrow_carveWrite g x z (x + dx d) (z + dz d) d
  intro a b e hab hbit
  by_cases hac : a = x ∧ b = z
  · obtain ⟨rfl, rfl⟩ := hac
    rw [carveWrite_self hne] at hbit
    rcases (hasDir_or_iff _ _ _).mp hbit with hold | hnew
    · obtain ⟨hinb, hop⟩ := hs a b e hab hold
      exact ⟨hinb, maskGrow_hasDir hgrow hop⟩
    · have hed : e = d := (hasDir_dirBit_iff e d).mp hnew
      subst hed
      refine ⟨hnb, ?_⟩
      rw [carveWrite_target hne]
      exact (hasDir_or_iff _ _ _).mpr (Or.inr ((hasDir_dirBit_iff _ _).mpr rfl))
  · by_cases han : a = x + dx d ∧ b = z + dz d
    · obtain ⟨rfl, rfl⟩ := han
      rw [carveWrite_target hne, hz0, Nat.zero_or] at hbit
      have hed : e = opposite d := (hasDir_dirBit_iff _ _).mp hbit
      subst hed
      have hax : x + dx d + dx (opposite d) = x := by
        rw [dx_opposite]; ring
      have haz : z + dz d + dz (opposite d) = z := by
        rw [dz_opposite]; ring
      rw [hax, haz]
      refine ⟨hcx, ?_⟩
      rw [carveWrite_self hne, opposite_opposite]
      exact (hasDir_or_iff _ _ _).mpr (Or.inr ((hasDir_dirBit_iff _ _).mpr rfl))
    · rw [carveWrite_other hac han] at hbit
      obtain ⟨hinb, hop⟩ := hs a b e hab hbit
      exact ⟨hinb, maskGrow_hasDir hgrow hop⟩

theorem hasDir_or (a b : ℕ) (e : Dir) :
    hasDir (a ||| b) e = (hasDir a e || hasDir b e) := by
  cases ha : hasDir a e
  · cases hb : hasDir b e
    · rw [Bool.or_false]
      rw [Bool.eq_false_iff]
      intro hc
      rcases (hasDir_or_iff a b e).mp hc with hx | hx
      · rw [ha] at hx; exact Bool.false_ne_true hx
      · rw [hb] at hx; exact Bool.false_ne_true hx
    · rw [Bool.false_or]
      exact (hasDir_or_iff a b e).mpr (Or.inr hb)
  · rw [Bool.true_or]
    exact (hasDir_or_iff a b e).mpr (Or.inl ha)

theorem dirBit_ne_zero (d : Dir) : dirBit d ≠ 0 := by
  cases d <;> decide

theorem sum_two_update {s : Finset (ℤ × ℤ)} (F F' : ℤ × ℤ → ℕ) {c n : ℤ × ℤ}
    (hc : c ∈ s) (hn : n ∈ s) (hne : c ≠ n)
    (hoff : ∀ a ∈ s, a ≠ c → a ≠ n → F' a = F a) :
    ∑ a ∈ s, F' a + (F c + F n) = ∑ a ∈ s, F a + (F' c + F' n) := by
  have hn' : n ∈ s.erase c := Finset.mem_erase.mpr ⟨Ne.symm hne, hn⟩
  have e1 : ∑ a ∈ s.erase c, F' a + F' c = ∑ a ∈ s, F' a :=
    Finset.sum_erase_add s F' hc
  have e2 : ∑ a ∈ (s.erase c).erase n, F' a + F' n = ∑ a ∈ s.erase c, F' a :=
    Finset.sum_erase_add _ F' hn'
  have e3 : ∑ a ∈ s.erase c, F a + F c = ∑ a ∈ s, F a :=
    Finset.sum_erase_add s F hc
  have e4 : ∑ a ∈ (s.erase c).erase n, F a + F n = ∑ a ∈ s.erase c, F a :=
    Finset.sum_erase_add _ F hn'
  have ecg : ∑ a ∈ (s.erase c).erase n, F' a = ∑ a ∈ (s.erase c).erase n, F a := by
    refine Finset.sum_congr rfl fun a ha => ?_
    rw [Finset.mem_erase, Finset.mem_erase] at ha
    exact hoff a ha.2.2 ha.2.1 ha.1
  omega

theorem edgeSummand_zero {g : Grid} {a : ℤ × ℤ} (hz : g a.1 a.2 = 0) :
    edgeSummand g a = 0 := by
  unfold edgeSummand
  rw [hz, hasDir_zero, hasDir_zero]
  rfl

theorem edgeCount_of_Vset_empty {w h : ℤ} {g : Grid}
    (hv : Vset w h g = ∅) : edgeCount w h g = 0 := by
  refine Finset.sum_eq_zero fun c hcm => ?_
  have hz : g c.1 c.2 = 0 := by
    by_contra hc
    have : c ∈ Vset w h g := Finset.mem_filter.mpr ⟨hcm, hc⟩
    rw [hv] at this
    exact absurd this (Finset.not_mem_empty c)
  exact edgeSummand_zero hz

theorem hasDir_fresh {w h : ℤ} {g : Grid} {x z : ℤ} {d : Dir}
    (hs : SymmAdj w h g) (hcx : inB w h x z)
    (hz0 : g (x + dx d) (z + dz d) = 0) :
    hasDir (g x z) d = false := by
  rw [Bool.eq_false_iff]
  intro hc
  have := (hs x z d hcx hc).2
  exact ne_zero_of_hasDir this hz0

theorem edgeCount_carveWrite {w h : ℤ} {g : Grid} {x z : ℤ} {d : Dir}
    (hs : SymmAdj w h g) (hcx : inB w h x z)
    (hnb : inB w h (x + dx d) (z + dz d))
    (hz0 : g (x + dx d) (z + dz d) = 0) :
    edgeCount w h (carveWrite g x z d (x + dx d) (z + dz d)) =
      edgeCount w h g + 1 := by
  have hne : ((x + dx d, z + dz d) : ℤ × ℤ) ≠ (x, z) := delta_ne x z d
  have hfresh := hasDir_fresh hs hcx hz0
  set g' := carveWrite g x z d (x + dx d) (z + dz d) with hg'
  have hvc : g' x z = g x z ||| dirBit d := carveWrite_self hne
  have hvn : g' (x + dx d) (z + dz d) = dirBit (opposite d) := by
    rw [hg', carveWrite_target hne, hz0, Nat.zero_or]
  have hoffv : ∀ a : ℤ × ℤ, a ≠ (x, z) → a ≠ (x + dx d, z + dz d) →
      g' a.1 a.2 = g a.1 a.2 := by
    intro a h1 h2
    refine carveWrite_other ?_ ?_
    · intro hcon; exact h1 (Prod.ext_iff.mpr hcon)
    · intro hcon; exact h2 (Prod.ext_iff.mpr hcon)
  have key := sum_two_update (edgeSummand g) (edgeSummand g')
    (mem_cellsFin.mpr hcx) (mem_cellsFin.mpr hnb) (Ne.symm hne)
    (fun a _ h1 h2 => by unfold edgeSummand; rw [hoffv a h1 h2])
  have hcval : edgeSummand g' (x, z) + edgeSummand g' (x + dx d, z + dz d) =
      edgeSummand g (x, z) + edgeSummand g (x + dx d, z + dz d) + 1 := by
    unfold edgeSummand
    simp only [show ((x, z) : ℤ × ℤ).1 = x from rfl,
      show ((x, z) : ℤ × ℤ).2 = z from rfl,
      show ((x + dx d, z + dz d) : ℤ × ℤ).1 = x + dx d from rfl,
      show ((x + dx d, z + dz d) : ℤ × ℤ).2 = z + dz d from rfl]
    rw [hvc, hvn, hz0]
    cases d
    · rw [hasDir_or, hasDir_or,
        show hasDir (dirBit Dir.north) Dir.east = false from by decide,
        show hasDir (dirBit Dir.north) Dir.south = false from by decide,
        show hasDir (dirBit (opposite Dir.north)) Dir.east = false from by decide,
        show hasDir (dirBit (opposite Dir.north)) Dir.south = true from by decide,
        hasDir_zero, hasDir_zero]
      simp
    · rw [hasDir_or, hasDir_or,
        show hasDir (dirBit Dir.south) Dir.east = false from by decide,
        show hasDir (dirBit Dir.south) Dir.south = true from by decide,
        show hasDir (dirBit (opposite Dir.south)) Dir.east = false from by decide,
        show hasDir (dirBit (opposite Dir.south)) Dir.south = false from by decide,
        hasDir_zero, hasDir_zero]
      have hfs : hasDir (g x z) Dir.south = false := hfresh
      rw [hfs]
      simp
    · rw [hasDir_or, hasDir_or,
        show hasDir (dirBit Dir.east) Dir.east = true from by decide,
        show hasDir (dirBit Dir.east) Dir.south = false from by decide,
        show hasDir (dirBit (opposite Dir.east)) Dir.east = false from by decide,
        show hasDir (dirBit (opposite Dir.east)) Dir.south = false from by decide,
        hasDir_zero, hasDir_zero]
      have hfs : hasDir (g x z) Dir.east = false := hfresh
      rw [hfs]
      simp
      omega
    · rw [hasDir_or, hasDir_or,
        show hasDir (dirBit Dir.west) Dir.east = false from by decide,
        show hasDir (dirBit Dir.west) Dir.south = false from by decide,
        show hasDir (dirBit (opposite Dir.west)) Dir.east = true from by decide,
        show hasDir (dirBit (opposite Dir.west)) Dir.south = false from by decide,
        hasDir_zero, hasDir_zero]
      simp
  unfold edgeCount
  omega

theorem Vset_carveWrite {w h : ℤ} {g : Grid} {x z : ℤ} {d : Dir}
    (hcx : inB w h x z) (hnb : inB w h (x + dx d) (z + dz d)) :
    Vset w h (carveWrite g x z d (x + dx d) (z + dz d)) =
      insert (x, z) (insert (x + dx d, z + dz d) (Vset w h g)) := by
  have hne : ((x + dx d, z + dz d) : ℤ × ℤ) ≠ (x, z) := delta_ne x z d
  ext a
  rw [Finset.mem_insert, Finset.mem_insert, Vset, Vset, Finset.mem_filter,
    Finset.mem_filter]
  by_cases hac : a = (x, z)
  · subst hac
    constructor
    · intro _
      exact Or.inl rfl
    · intro _
      refine ⟨mem_cellsFin.mpr hcx, ?_⟩
      show carveWrite g x z d (x + dx d) (z + dz d) x z ≠ 0
      rw [carveWrite_self hne]
      intro hcon
      have hd : hasDir (g x z ||| dirBit d) d = true :=
        (hasDir_or_iff _ _ _).mpr (Or.inr ((hasDir_dirBit_iff _ _).mpr rfl))
      exact ne_zero_of_hasDir hd hcon
  · by_cases han : a = (x + dx d, z + dz d)
    · subst han
      constructor
      · intro _
        exact Or.inr (Or.inl rfl)
      · intro _
        refine ⟨mem_cellsFin.mpr hnb, ?_⟩
        show carveWrite g x z d (x + dx d) (z + dz d) (x + dx d) (z + dz d) ≠ 0
        rw [carveWrite_target hne]
        intro hcon
        have hd : hasDir (g (x + dx d) (z + dz d) ||| dirBit (opposite d))
            (opposite d) = true :=
          (hasDir_or_iff _ _ _).mpr (Or.inr ((hasDir_dirBit_iff _ _).mpr rfl))
        exact ne_zero_of_hasDir hd hcon
    · have hval : carveWrite g x z d (x + dx d) (z + dz d) a.1 a.2 = g a.1 a.2 := by
        refine carveWrite_other ?_ ?_
        · intro hcon; exact hac (Prod.ext_iff.mpr hcon)
        · intro hcon; exact han (Prod.ext_iff.mpr hcon)
      rw [hval]
      constructor
      · intro hx; exact Or.inr (Or.inr hx)
      · intro hx
        rcases hx with hx | hx | hx
        · exact absurd hx hac
        · exact absurd hx han
        · exact hx

theorem unvis_carveWrite_lt {w h : ℤ} {g : Grid} {x z : ℤ} {d : Dir}
    (hnb : inB w h (x + dx d) (z + dz d))
    (hz0 : g (x + dx d) (z + dz d) = 0) :
    unvis w h (carveWrite g x z d (x + dx d) (z + dz d)) < unvis w h g := by
  have hne : ((x + dx d, z + dz d) : ℤ × ℤ) ≠ (x, z) := delta_ne x z d
  have hgrow := maskGrow_carveWrite g x z (x + dx d) (z + dz d) d
  apply Finset.card_lt_card
  have hsub : ((cellsFin w h).filter
      (fun c => carveWrite g x z d (x + dx d) (z + dz d) c.1 c.2 = 0)) ⊆
      ((cellsFin w h).filter (fun c => g c.1 c.2 = 0)) := by
    intro c hc
    rw [Finset.mem_filter] at hc ⊢
    exact ⟨hc.1, maskGrow_zero_rev hgrow hc.2⟩
  rw [Finset.ssubset_iff_of_subset hsub]
  refine ⟨(x + dx d, z + dz d), Finset.mem_filter.mpr ⟨mem_cellsFin.mpr hnb, hz0⟩, ?_⟩
  rw [Finset.mem_filter]
  intro hcon
  have hval : carveWrite g x z d (x + dx d) (z + dz d) (x + dx d) (z + dz d) =
      dirBit (opposite d) := by
    rw [carveWrite_target hne, hz0, Nat.zero_or]
  rw [show ((x + dx d, z + dz d) : ℤ × ℤ).1 = x + dx d from rfl,
    show ((x + dx d, z + dz d) : ℤ × ℤ).2 = z + dz d from rfl, hval] at hcon
  exact dirBit_ne_zero (opposite d) hcon.2

theorem connInv_carveWrite {w h : ℤ} {g : Grid} {x z : ℤ} {d : Dir}
    (hconn : ConnInv w h g) (hcx : inB w h x z)
    (hnb : inB w h (x + dx d) (z + dz d))
    (hroot : Vset w h g = ∅ → (x, z) = (0, 0))
    (hmem : Vset w h g ≠ ∅ → (x, z) ∈ Vset w h g) :
    ConnInv w h (carveWrite g x z d (x + dx d) (z + dz d)) := by
  have hne : ((x + dx d, z + dz d) : ℤ × ℤ) ≠ (x, z) := delta_ne x z d
  have hgrow := maskGrow_carveWrite g x z (x + dx d) (z + dz d) d
  have hveq := Vset_carveWrite (g := g) (d := d) hcx hnb
  have hstep : passStep w h (carveWrite g x z d (x + dx d) (z + dz d))
      (x, z) (x + dx d, z + dz d) := by
    refine ⟨hcx, d, ?_, rfl⟩
    rw [show ((x, z) : ℤ × ℤ).1 = x from rfl, show ((x, z) : ℤ × ℤ).2 = z from rfl,
      carveWrite_self hne]
    exact (hasDir_or_iff _ _ _).mpr (Or.inr ((hasDir_dirBit_iff _ _).mpr rfl))
  by_cases hv : Vset w h g = ∅
  · have hxz := hroot hv
    constructor
    · intro _
      rw [hveq, hv, hxz]
      exact Finset.mem_insert_self _ _
    · intro c hcmem
      rw [hveq, hv, Finset.mem_insert, Finset.mem_insert] at hcmem
      rcases hcmem with hc | hc | hc
      · rw [hc, ← hxz]
        exact Relation.ReflTransGen.refl
      · rw [hc, ← hxz]
        exact Relation.ReflTransGen.single hstep
      · exact absurd hc (Finset.not_mem_empty c)
  · have hxzmem := hmem hv
    have hreach0 : ReachP w h g (0, 0) (x, z) := hconn.2 _ hxzmem
    have hroot0 : (0, 0) ∈ Vset w h g :=
      hconn.1 (Finset.nonempty_iff_ne_empty.mpr hv)
    constructor
    · intro _
      rw [hveq]
      exact Finset.mem_insert_of_mem (Finset.mem_insert_of_mem hroot0)
    · intro c hcmem
      rw [hveq, Finset.mem_insert, Finset.mem_insert] at hcmem
      rcases hcmem with hc | hc | hc
      · rw [hc]
        exact maskGrow_ReachP hgrow hreach0
      · rw [hc]
        exact Relation.ReflTransGen.tail (maskGrow_ReachP hgrow hreach0) hstep
      · exact maskGrow_ReachP hgrow (hconn.2 _ hc)

theorem edgeInv_carveWrite {w h : ℤ} {g : Grid} {x z : ℤ} {d : Dir}
    (hs : SymmAdj w h g) (hedge : EdgeInv w h g) (hcx : inB w h x z)
    (hnb : inB w h (x + dx d) (z + dz d))
    (hz0 : g (x + dx d) (z + dz d) = 0)
    (hmem : Vset w h g ≠ ∅ → (x, z) ∈ Vset w h g) :
    EdgeInv w h (carveWrite g x z d (x + dx d) (z + dz d)) := by
  have hne : ((x + dx d, z + dz d) : ℤ × ℤ) ≠ (x, z) := delta_ne x z d
  have hveq := Vset_carveWrite (g := g) (d := d) hcx hnb
  have hec := edgeCount_carveWrite hs hcx hnb hz0
  have hnnot : (x + dx d, z + dz d) ∉ Vset w h g := by
    intro hc
    rw [Vset, Finset.mem_filter] at hc
    exact hc.2 hz0
  left
  rw [hec, hveq]
  by_cases hv : Vset w h g = ∅
  · rw [hv]
    have he0 : edgeCount w h g = 0 := edgeCount_of_Vset_empty hv
    rw [he0]
    rw [Finset.card_insert_of_not_mem, Finset.card_insert_of_not_mem]
    · simp
    · simp
    · rw [Finset.mem_insert]
      intro hcon
      rcases hcon with hcon | hcon
      · exact (Ne.symm hne) hcon
      · exact absurd hcon (Finset.not_mem_empty _)
  · have hxzmem := hmem hv
    have habs : insert (x, z) (insert (x + dx d, z + dz d) (Vset w h g)) =
        insert (x + dx d, z + dz d) (Vset w h g) := by
      apply Finset.insert_eq_self.mpr
      exact Finset.mem_insert_of_mem hxzmem
    rw [habs, Finset.card_insert_of_not_mem hnnot]
    rcases hedge with he | he
    · omega
    · exact absurd he hv

theorem carve_spec (w h : ℤ) (ρ : ℕ → List Dir) (hρ : ∀ n : ℕ, ∀ d : Dir, d ∈ ρ n) :
    ∀ fuel : ℕ, ∀ g : Grid, ∀ x z : ℤ, ∀ k : ℕ,
      unvis w h g < fuel →
      inB w h x z →
      SymmAdj w h g → ConnInv w h g → EdgeInv w h g →
      (Vset w h g = ∅ → (x, z) = (0, 0)) →
      (Vset w h g ≠ ∅ → (x, z) ∈ Vset w h g) →
      CarvePost w h g (carvePassagesFrom w h ρ fuel g x z k).1 x z := by
  intro fuel
  induction fuel with
  | zero =>
      intro g x z k hfuel
      exact absurd hfuel (Nat.not_lt_zero _)
  | succ fuel ih =>
      intro g x z k hfuel hin hsym hconn hedge hroot hmem
      have fold : ∀ (dirs : List Dir) (gk : Grid × ℕ),
          FoldInv w h g x z gk.1 →
          FoldInv w h g x z
            ((dirs.foldl (carveStep w h (carvePassagesFrom w h ρ fuel) x z) gk).1) ∧
          MaskGrow gk.1
            ((dirs.foldl (carveStep w h (carvePassagesFrom w h ρ fuel) x z) gk).1) ∧
          (∀ d ∈ dirs, inB w h (x + dx d) (z + dz d) →
            (x + dx d, z + dz d) ∈ Vset w h
              ((dirs.foldl (carveStep w h (carvePassagesFrom w h ρ fuel) x z) gk).1)) := by
        intro dirs
        induction dirs with
        | nil =>
            intro gk hinv
            exact ⟨hinv, maskGrow_refl _, fun d hd => absurd hd (List.not_mem_nil d)⟩
        | cons d rest ihd =>
            intro gk hinv
            rw [List.foldl_cons]
            by_cases hcond : 0 ≤ x + dx d ∧ x + dx d < w ∧ 0 ≤ z + dz d ∧
                z + dz d < h ∧ gk.1 (x + dx d) (z + dz d) = 0
            · have hstep : carveStep w h (carvePassagesFrom w h ρ fuel) x z gk d =
                  carvePassagesFrom w h ρ fuel
                    (carveWrite gk.1 x z d (x + dx d) (z + dz d))
                    (x + dx d) (z + dz d) gk.2 := by
                unfold carveStep
                rw [if_pos hcond]
              rw [hstep]
              obtain ⟨h1, h2, h3, h4, hz0⟩ := hcond
              have hnb : inB w h (x + dx d) (z + dz d) := ⟨h1, h2, h3, h4⟩
              have hsym1 := symmAdj_carveWrite hinv.symm hin hnb hz0
              have hconn1 := connInv_carveWrite hinv.conn hin hnb hinv.emptyRoot hinv.memSelf
              have hedge1 := edgeInv_carveWrite hinv.symm hinv.edge hin hnb hz0 hinv.memSelf
              have hgrow1 := maskGrow_carveWrite gk.1 x z (x + dx d) (z + dz d) d
              have hunv1lt := unvis_carveWrite_lt (g := gk.1) (d := d) hnb hz0
              have hveq := Vset_carveWrite (g := gk.1) (d := d) hin hnb
              have hnmem1 : (x + dx d, z + dz d) ∈
                  Vset w h (carveWrite gk.1 x z d (x + dx d) (z + dz d)) := by
                rw [hveq]
                exact Finset.mem_insert_of_mem (Finset.mem_insert_self _ _)
              have hxmem1 : (x, z) ∈
                  Vset w h (carveWrite gk.1 x z d (x + dx d) (z + dz d)) := by
                rw [hveq]
                exact Finset.mem_insert_self _ _
              have hne1 : Vset w h (carveWrite gk.1 x z d (x + dx d) (z + dz d)) ≠ ∅ := by
                intro hcon
                rw [hcon] at hnmem1
                exact absurd hnmem1 (Finset.not_mem_empty _)
              have hfu : unvis w h (carveWrite gk.1 x z d (x + dx d) (z + dz d)) < fuel := by
                have hu1 := hinv.unv
                omega
              have hpost := ih (carveWrite gk.1 x z d (x + dx d) (z + dz d))
                (x + dx d) (z + dz d) gk.2 hfu hnb hsym1 hconn1 hedge1
                (fun hcon => absurd hcon hne1) (fun _ => hnmem1)
              have hinv2 : FoldInv w h g x z
                  ((carvePassagesFrom w h ρ fuel
                    (carveWrite gk.1 x z d (x + dx d) (z + dz d))
                    (x + dx d) (z + dz d) gk.2).1) :=
                { grow := maskGrow_trans hinv.grow (maskGrow_trans hgrow1 hpost.grow)
                  unv := le_trans (maskGrow_unvis_le hpost.grow)
                    (le_trans (le_of_lt hunv1lt) hinv.unv)
                  symm := hpost.symm
                  conn := hpost.conn
                  edge := hpost.edge
                  emptyRoot := fun hcon =>
                    absurd (maskGrow_Vset hpost.grow hnmem1)
                      (by rw [hcon]; exact Finset.not_mem_empty _)
                  memSelf := fun _ => maskGrow_Vset hpost.grow hxmem1
                  closedNew := by
                    intro c hc2 hcnotg hcne
                    by_cases hc1 : c ∈ Vset w h (carveWrite gk.1 x z d (x + dx d) (z + dz d))
                    · rw [hveq, Finset.mem_insert, Finset.mem_insert] at hc1
                      rcases hc1 with hcx | hcn | hcg
                      · exact absurd hcx hcne
                      · rw [hcn]
                        exact hpost.closedSelf
                      · exact maskGrow_ClosedCell (maskGrow_trans hgrow1 hpost.grow)
                          (hinv.closedNew c hcg hcnotg hcne)
                    · have hcnen : c ≠ (x + dx d, z + dz d) := by
                        intro hcon
                        rw [hcon] at hc1
                        exact hc1 hnmem1
                      exact hpost.closedNew c hc2 hc1 hcnen }
              obtain ⟨hinvf, hgrowf, htargets⟩ := ihd _ hinv2
              refine ⟨hinvf, ?_, ?_⟩
              · exact maskGrow_trans hgrow1 (maskGrow_trans hpost.grow hgrowf)
              · intro e he htin
                rcases List.mem_cons.mp he with rfl | he'
                · exact maskGrow_Vset hgrowf (maskGrow_Vset hpost.grow hnmem1)
                · exact htargets e he' htin
            · have hstep : carveStep w h (carvePassagesFrom w h ρ fuel) x z gk d = gk := by
                unfold carveStep
                rw [if_neg hcond]
              rw [hstep]
              obtain ⟨hinvf, hgrowf, htargets⟩ := ihd gk hinv
              refine ⟨hinvf, hgrowf, ?_⟩
              intro e he htin
              rcases List.mem_cons.mp he with rfl | he'
              · obtain ⟨ha, hb, hc, hd'⟩ := htin
                have hnz : gk.1 (x + dx e) (z + dz e) ≠ 0 := by
                  intro hcon
                  exact hcond ⟨ha, hb, hc, hd', hcon⟩
                have hmemv : (x + dx e, z + dz e) ∈ Vset w h gk.1 :=
                  Finset.mem_filter.mpr ⟨mem_cellsFin.mpr ⟨ha, hb, hc, hd'⟩, hnz⟩
                exact maskGrow_Vset hgrowf hmemv
              · exact htargets e he' htin
      have hinv0 : FoldInv w h g x z g :=
        { grow := maskGrow_refl g
          unv := le_refl _
          symm := hsym
          conn := hconn
          edge := hedge
          emptyRoot := hroot
          memSelf := hmem
          closedNew := fun c hc hnc _ => absurd hc hnc }
      obtain ⟨hinvf, _, htargets⟩ := fold (ρ k) (g, k + 1) hinv0
      exact
        { grow := hinvf.grow
          symm := hinvf.symm
          conn := hinvf.conn
          edge := hinvf.edge
          selfMem := by
            by_cases hv : Vset w h ((carvePassagesFrom w h ρ (fuel + 1) g x z k).1) = ∅
            · exact Or.inr hv
            · exact Or.inl (hinvf.memSelf hv)
          closedSelf := fun d hd => htargets d (hρ k d) hd
          closedNew := hinvf.closedNew }

theorem grid_closure (w h : ℤ) (hw : 1 ≤ w) (hh : 1 ≤ h) (T : ℤ × ℤ → Prop)
    (hroot : T (0, 0))
    (hcl : ∀ a b : ℤ, inB w h a b → T (a, b) → ∀ d : Dir,
      inB w h (a + dx d) (b + dz d) → T (a + dx d, b + dz d)) :
    ∀ a b : ℤ, inB w h a b → T (a, b) := by
  have hrow : ∀ i : ℕ, (i : ℤ) < w → T ((i : ℤ), 0) := by
    intro i
    induction i with
    | zero => intro _; exact hroot
    | succ n ihn =>
        intro hlt
        have hcast : ((n + 1 : ℕ) : ℤ) = (n : ℤ) + 1 := by push_cast; ring
        rw [hcast] at hlt
        have hn : ((n : ℤ)) < w := by omega
        have h1 : inB w h (n : ℤ) 0 := by
          unfold inB
          have := Int.natCast_nonneg n
          omega
        have h2 := hcl (n : ℤ) 0 h1 (ihn hn) Dir.east (by
          unfold inB
          simp only [dx, dz]
          have := Int.natCast_nonneg n
          omega)
        have heq : (((n : ℤ) + dx Dir.east, (0 : ℤ) + dz Dir.east) : ℤ × ℤ) =
            (((n + 1 : ℕ) : ℤ), 0) := by
          simp only [dx, dz]
          rw [Prod.ext_iff]
          constructor
          · simp [hcast]
          · simp
        rwa [heq] at h2
  have hcol : ∀ j i : ℕ, (i : ℤ) < w → (j : ℤ) < h → T ((i : ℤ), (j : ℤ)) := by
    intro j
    induction j with
    | zero => intro i hi _; exact hrow i hi
    | succ m ihm =>
        intro i hi hlt
        have hcast : ((m + 1 : ℕ) : ℤ) = (m : ℤ) + 1 := by push_cast; ring
        rw [hcast] at hlt
        have hm : ((m : ℤ)) < h := by omega
        have h1 : inB w h (i : ℤ) (m : ℤ) := by
          unfold inB
          have := Int.natCast_nonneg i
          have := Int.natCast_nonneg m
          omega
        have h2 := hcl (i : ℤ) (m : ℤ) h1 (ihm i hi hm) Dir.south (by
          unfold inB
          simp only [dx, dz]
          have := Int.natCast_nonneg i
          have := Int.natCast_nonneg m
          omega)
        have heq : (((i : ℤ) + dx Dir.south, (m : ℤ) + dz Dir.south) : ℤ × ℤ) =
            (((i : ℤ)), ((m + 1 : ℕ) : ℤ)) := by
          simp only [dx, dz]
          rw [Prod.ext_iff]
          constructor
          · simp
          · simp [hcast]
        rwa [heq] at h2
  intro a b hab
  obtain ⟨ha0, haw, hb0, hbh⟩ := hab
  have hA : ((a.toNat : ℤ)) = a := Int.toNat_of_nonneg ha0
  have hB : ((b.toNat : ℤ)) = b := Int.toNat_of_nonneg hb0
  have := hcol b.toNat a.toNat (by omega) (by omega)
  rwa [hA, hB] at this

theorem passStep_symm {w h : ℤ} {g : Grid} (hs : SymmAdj w h g) :
    Symmetric (passStep w h g) := by
  intro a b hab
  obtain ⟨hin, d, hd, hb⟩ := hab
  obtain ⟨hinb, hop⟩ := hs a.1 a.2 d hin hd
  subst hb
  refine ⟨hinb, opposite d, hop, ?_⟩
  rw [dx_opposite, dz_opposite, Prod.ext_iff]
  constructor
  · show a.1 = a.1 + dx d + -dx d
    ring
  · show a.2 = a.2 + dz d + -dz d
    ring

theorem cellsFin_card (w h : ℤ) : (cellsFin w h).card = w.toNat * h.toNat := by
  unfold cellsFin
  rw [Finset.card_product, Int.card_Icc, Int.card_Icc]
  congr 1 <;> omega

theorem Vset_zeroGrid (w h : ℤ) : Vset w h zeroGrid = ∅ := by
  unfold Vset zeroGrid
  simp

theorem unvis_zeroGrid (w h : ℤ) : unvis w h zeroGrid = w.toNat * h.toNat := by
  unfold unvis zeroGrid
  rw [← cellsFin_card w h]
  congr 1
  simp

theorem symmAdj_zeroGrid (w h : ℤ) : SymmAdj w h zeroGrid := by
  intro x z d _ hbit
  rw [show zeroGrid x z = 0 from rfl, hasDir_zero] at hbit
  exact absurd hbit (Bool.false_ne_true)

theorem connInv_zeroGrid (w h : ℤ) : ConnInv w h zeroGrid := by
  constructor
  · intro hne
    rw [Vset_zeroGrid] at hne
    exact absurd hne Finset.not_nonempty_empty
  · intro c hc
    rw [Vset_zeroGrid] at hc
    exact absurd hc (Finset.not_mem_empty c)

theorem edgeInv_zeroGrid (w h : ℤ) : EdgeInv w h zeroGrid :=
  Or.inr (Vset_zeroGrid w h)

/-- C2: `generateMaze()` (the recursive-backtracker `carvePassagesFrom(0,0)` of
the current `Maze.ts`) produces a spanning tree of the `w × h` grid graph for
all `w, h ≥ 1` and every outcome of the direction shuffles: every cell is
reachable from every other cell along carved passage bits, and the number of
carved passages is exactly `w*h - 1`.  (The legacy hunt-and-kill revision of
`generateMaze` violates this claim via the defect recorded at C7.) -/
theorem C2_generateMaze_is_spanning_tree (w h : ℤ) (ρ : ℕ → List Dir)
    (hw : 1 ≤ w) (hh : 1 ≤ h) (hρ : ∀ n : ℕ, (ρ n).Perm dirList) :
    (∀ c ∈ cellsFin w h, ∀ c' ∈ cellsFin w h,
      ReachP w h (generateMaze w h ρ) c c') ∧
    (edgeCount w h (generateMaze w h ρ) : ℤ) = w * h - 1 := by
  have hmemρ : ∀ n : ℕ, ∀ d : Dir, d ∈ ρ n :=
    fun n d => ((hρ n).mem_iff).mpr (mem_dirList d)
  have hfuel : unvis w h zeroGrid < w.toNat * h.toNat + 1 := by
    rw [unvis_zeroGrid]
    omega
  have hin00 : inB w h 0 0 := ⟨le_refl 0, by omega, le_refl 0, by omega⟩
  have hpost := carve_spec w h ρ hmemρ (w.toNat * h.toNat + 1) zeroGrid 0 0 0
    hfuel hin00 (symmAdj_zeroGrid w h) (connInv_zeroGrid w h) (edgeInv_zeroGrid w h)
    (fun _ => rfl) (fun hne => absurd (Vset_zeroGrid w h) hne)
  have hGdef : generateMaze w h ρ =
      (carvePassagesFrom w h ρ (w.toNat * h.toNat + 1) zeroGrid 0 0 0).1 := rfl
  rw [hGdef]
  set G := (carvePassagesFrom w h ρ (w.toNat * h.toNat + 1) zeroGrid 0 0 0).1 with hG
  have hClosedAll : ∀ c : ℤ × ℤ, (c ∈ Vset w h G ∨ c = (0, 0)) →
      ClosedCell w h G c := by
    intro c hc
    rcases hc with hcv | hcr
    · by_cases hcr : c = (0, 0)
      · rw [hcr]
        exact hpost.closedSelf
      · refine hpost.closedNew c hcv ?_ hcr
        rw [Vset_zeroGrid]
        exact Finset.not_mem_empty c
    · rw [hcr]
      exact hpost.closedSelf
  have hT := grid_closure w h hw hh (fun c => c ∈ Vset w h G ∨ c = (0, 0))
    (Or.inr rfl)
    (by
      intro a b hab hTab d htin
      exact Or.inl (hClosedAll (a, b) hTab d htin))
  by_cases hv : Vset w h G = ∅
  · have honly : ∀ c : ℤ × ℤ, c ∈ cellsFin w h → c = (0, 0) := by
      intro c hc
      have := hT c.1 c.2 (mem_cellsFin.mp hc)
      rcases this with hcv | hcr
      · rw [hv] at hcv
        exact absurd hcv (Finset.not_mem_empty c)
      · exact hcr
    have hcard1 : (cellsFin w h).card ≤ 1 := by
      apply Finset.card_le_one.mpr
      intro a ha b hb
      rw [honly a ha, honly b hb]
    have hcards : (cellsFin w h).card = w.toNat * h.toNat := cellsFin_card w h
    have hwh1 : w = 1 ∧ h = 1 := by
      have h1 : w.toNat * h.toNat ≤ 1 := by omega
      have h4 : w.toNat ≤ w.toNat * h.toNat := Nat.le_mul_of_pos_right _ (by omega)
      have h5 : h.toNat ≤ w.toNat * h.toNat := Nat.le_mul_of_pos_left _ (by omega)
      constructor <;> omega
    constructor
    · intro c hc c' hc'
      rw [honly c hc, honly c' hc']
      exact Relation.ReflTransGen.refl
    · rw [edgeCount_of_Vset_empty hv, hwh1.1, hwh1.2]
      rfl
  · have hroot : (0, 0) ∈ Vset w h G :=
      hpost.conn.1 (Finset.nonempty_iff_ne_empty.mpr hv)
    have hall : ∀ c : ℤ × ℤ, c ∈ cellsFin w h → c ∈ Vset w h G := by
      intro c hc
      rcases hT c.1 c.2 (mem_cellsFin.mp hc) with hcv | hcr
      · exact hcv
      · have hce : c = (0, 0) := hcr
        rw [hce]
        exact hroot
    have hVeq : Vset w h G = cellsFin w h :=
      Finset.Subset.antisymm (Finset.filter_subset _ _) hall
    have hreach : ∀ c ∈ cellsFin w h, ReachP w h G (0, 0) c := by
      intro c hc
      exact hpost.conn.2 c (hVeq ▸ hc)
    have hsymR : Symmetric (ReachP w h G) :=
      Relation.ReflTransGen.symmetric (passStep_symm hpost.symm)
    constructor
    · intro c hc c' hc'
      exact Relation.ReflTransGen.trans (hsymR (hreach c hc)) (hreach c' hc')
    · rcases hpost.edge with he | he
      · rw [hVeq, cellsFin_card] at he
        have hcast : ((w.toNat * h.toNat : ℕ) : ℤ) = w * h := by
          push_cast
          rw [Int.toNat_of_nonneg (by omega), Int.toNat_of_nonneg (by omega)]
        omega
      · exact absurd he hv

/-- C2 witness: a concrete 2×2 instance under one shuffle-outcome stream. -/
theorem C2_generateMaze_is_spanning_tree_witness :
    (edgeCount 2 2 (generateMaze 2 2 rhoConst) : ℤ) = 2 * 2 - 1 ∧
    ReachP 2 2 (generateMaze 2 2 rhoConst) (0, 1) (1, 0) := by
  have hmain := C2_generateMaze_is_spanning_tree 2 2 rhoConst (by omega) (by omega)
    (fun _ => List.Perm.refl _)
  exact ⟨hmain.2, hmain.1 (0, 1) (by decide) (1, 0) (by decide)⟩

/-- C3: the symmetric-adjacency invariant.  First, every write pair the
carving code performs (`grid[z][x] |= dir; grid[nz][nx] |= opposite(dir)` on
an in-bounds unvisited target) preserves symmetric adjacency; second, after
generation completes the grid satisfies it: every set direction bit points to
an in-bounds neighbor carrying the opposite bit. -/
theorem C3_symmetric_adjacency_invariant :
    (∀ (w h : ℤ) (g : Grid) (x z : ℤ) (d : Dir),
      SymmAdj w h g → inB w h x z → inB w h (x + dx d) (z + dz d) →
      g (x + dx d) (z + dz d) = 0 →
      SymmAdj w h (carveWrite g x z d (x + dx d) (z + dz d))) ∧
    (∀ (w h : ℤ) (ρ : ℕ → List Dir), 1 ≤ w → 1 ≤ h →
      (∀ n : ℕ, (ρ n).Perm dirList) →
      SymmAdj w h (generateMaze w h ρ)) := by
  constructor
  · intro w h g x z d hs hc hn hz
    exact symmAdj_carveWrite hs hc hn hz
  · intro w h ρ hw hh hρ
    have hmemρ : ∀ n : ℕ, ∀ d : Dir, d ∈ ρ n :=
      fun n d => ((hρ n).mem_iff).mpr (mem_dirList d)
    have hfuel : unvis w h zeroGrid < w.toNat * h.toNat + 1 := by
      rw [unvis_zeroGrid]
      omega
    have hin00 : inB w h 0 0 := ⟨le_refl 0, by omega, le_refl 0, by omega⟩
    exact (carve_spec w h ρ hmemρ (w.toNat * h.toNat + 1) zeroGrid 0 0 0
      hfuel hin00 (symmAdj_zeroGrid w h) (connInv_zeroGrid w h)
      (edgeInv_zeroGrid w h) (fun _ => rfl)
      (fun hne => absurd (Vset_zeroGrid w h) hne)).symm

theorem foldl_push_filter_map {α β : Type} (p : α → Bool) (f : α → β) :
    ∀ (l : List α) (init : List β),
      l.foldl (fun acc a => if p a then acc ++ [f a] else acc) init =
        init ++ (l.filter p).map f := by
  intro l
  induction l with
  | nil => intro init; simp
  | cons a rest ih =>
      intro init
      rw [List.foldl_cons]
      by_cases hp : p a
      · rw [if_pos hp, ih, List.filter_cons, if_pos hp]
        simp
      · rw [if_neg hp, ih, List.filter_cons, if_neg hp]

/-- C4: `Supervisor.willCollide`'s resolver core.  The output is the ground
collision (normal `(0,1,0)`, depth the penetration below `y = 0`) when the
entity box dips below the ground, followed by exactly one collision per
nearby collider whose box intersects the entity box, in list order; for each
such collider, the depth is the smaller of the X and Z overlap extents, the
normal lies along the axis of the smaller overlap (ties fall to Z), and on
that axis it points from the wall's center toward the entity's center
whenever the two centers differ (the code breaks the exact-tie on centers
toward `+1`). -/
theorem C4_willCollide_resolves_each_intersecting_collider :
    ∀ (pb : Box3) (walls : List Box3),
      (willCollide pb walls =
        (if pb.bmin.y < 0 then [⟨⟨0, 1, 0⟩, -pb.bmin.y⟩] else []) ++
        (walls.filter (fun wl => intersectsBox pb wl)).map (wallCollision pb)) ∧
      (pb.bmin.y < 0 → Collision.mk ⟨0, 1, 0⟩ (-pb.bmin.y) ∈ willCollide pb walls) ∧
      (∀ wl ∈ walls, intersectsBox pb wl = true →
        wallCollision pb wl ∈ willCollide pb walls ∧
        (wallCollision pb wl).depth =
          min (min pb.bmax.x wl.bmax.x - max pb.bmin.x wl.bmin.x)
              (min pb.bmax.z wl.bmax.z - max pb.bmin.z wl.bmin.z) ∧
        (pb.bmin.x ≤ pb.bmax.x → pb.bmin.z ≤ pb.bmax.z →
         wl.bmin.x ≤ wl.bmax.x → wl.bmin.z ≤ wl.bmax.z →
          0 ≤ (wallCollision pb wl).depth) ∧
        ((min pb.bmax.x wl.bmax.x - max pb.bmin.x wl.bmin.x <
          min pb.bmax.z wl.bmax.z - max pb.bmin.z wl.bmin.z) →
          (wallCollision pb wl).normal.y = 0 ∧
          (wallCollision pb wl).normal.z = 0 ∧
          ((boxCenter pb).x ≠ (boxCenter wl).x →
            0 < ((boxCenter pb).x - (boxCenter wl).x) * (wallCollision pb wl).normal.x)) ∧
        (¬(min pb.bmax.x wl.bmax.x - max pb.bmin.x wl.bmin.x <
           min pb.bmax.z wl.bmax.z - max pb.bmin.z wl.bmin.z) →
          (wallCollision pb wl).normal.x = 0 ∧
          (wallCollision pb wl).normal.y = 0 ∧
          ((boxCenter pb).z ≠ (boxCenter wl).z →
            0 < ((boxCenter pb).z - (boxCenter wl).z) * (wallCollision pb wl).normal.z))) := by
  intro pb walls
  have hchar : willCollide pb walls =
      (if pb.bmin.y < 0 then [⟨⟨0, 1, 0⟩, -pb.bmin.y⟩] else []) ++
      (walls.filter (fun wl => intersectsBox pb wl)).map (wallCollision pb) :=
    foldl_push_filter_map _ _ walls _
  refine ⟨hchar, ?_, ?_⟩
  · intro hy
    rw [hchar, if_pos hy]
    exact List.mem_append_left _ (List.mem_singleton.mpr rfl)
  · intro wl hwl hint
    refine ⟨?_, ?_, ?_, ?_, ?_⟩
    · rw [hchar]
      refine List.mem_append_right _ (List.mem_map.mpr ⟨wl, ?_, rfl⟩)
      exact List.mem_filter.mpr ⟨hwl, hint⟩
    · unfold wallCollision
      by_cases hlt : min pb.bmax.x wl.bmax.x - max pb.bmin.x wl.bmin.x <
          min pb.bmax.z wl.bmax.z - max pb.bmin.z wl.bmin.z
      · rw [if_pos hlt]
        show min pb.bmax.x wl.bmax.x - max pb.bmin.x wl.bmin.x = _
        rw [min_eq_left (le_of_lt hlt)]
      · rw [if_neg hlt]
        show min pb.bmax.z wl.bmax.z - max pb.bmin.z wl.bmin.z = _
        rw [min_eq_right (le_of_not_lt hlt)]
    · intro h1 h2 h3 h4
      unfold intersectsBox at hint
      rw [Bool.not_eq_true'] at hint
      simp only [Bool.or_eq_false_iff, decide_eq_false_iff_not] at hint
      obtain ⟨⟨⟨⟨⟨hxa, hxb⟩, _⟩, _⟩, hza⟩, hzb⟩ := hint
      have hxa' : pb.bmin.x ≤ wl.bmax.x := le_of_not_lt hxa
      have hxb' : wl.bmin.x ≤ pb.bmax.x := le_of_not_lt hxb
      have hza' : pb.bmin.z ≤ wl.bmax.z := le_of_not_lt hza
      have hzb' : wl.bmin.z ≤ pb.bmax.z := le_of_not_lt hzb
      unfold wallCollision
      by_cases hlt : min pb.bmax.x wl.bmax.x - max pb.bmin.x wl.bmin.x <
          min pb.bmax.z wl.bmax.z - max pb.bmin.z wl.bmin.z
      · rw [if_pos hlt]
        show (0 : ℚ) ≤ min pb.bmax.x wl.bmax.x - max pb.bmin.x wl.bmin.x
        rw [sub_nonneg, max_le_iff, le_min_iff, le_min_iff]
        constructor
        · exact ⟨h1, hxa'⟩
        · exact ⟨hxb', h3⟩
      · rw [if_neg hlt]
        show (0 : ℚ) ≤ min pb.bmax.z wl.bmax.z - max pb.bmin.z wl.bmin.z
        rw [sub_nonneg, max_le_iff, le_min_iff, le_min_iff]
        constructor
        · exact ⟨h2, hza'⟩
        · exact ⟨hzb', h4⟩
    · intro hlt
      unfold wallCollision
      rw [if_pos hlt]
      refine ⟨rfl, rfl, ?_⟩
      intro hne
      by_cases hc : (boxCenter pb).x < (boxCenter wl).x
      · rw [if_pos hc]
        show (0 : ℚ) < ((boxCenter pb).x - (boxCenter wl).x) * (-1)
        nlinarith [hc]
      · rw [if_neg hc]
        show (0 : ℚ) < ((boxCenter pb).x - (boxCenter wl).x) * 1
        push_neg at hc
        rcases lt_or_eq_of_le hc with hgt | heq
        · nlinarith [hgt]
        · exact absurd heq.symm hne
    · intro hlt
      unfold wallCollision
      rw [if_neg hlt]
      refine ⟨rfl, rfl, ?_⟩
      intro hne
      by_cases hc : (boxCenter pb).z < (boxCenter wl).z
      · rw [if_pos hc]
        show (0 : ℚ) < ((boxCenter pb).z - (boxCenter wl).z) * (-1)
        nlinarith [hc]
      · rw [if_neg hc]
        show (0 : ℚ) < ((boxCenter pb).z - (boxCenter wl).z) * 1
        push_neg at hc
        rcases lt_or_eq_of_le hc with hgt | heq
        · nlinarith [hgt]
        · exact absurd heq.symm hne

/-- C4 witness: the spec §8 example — the entity box at `(5,1,5)` against the
wall spanning `x ∈ [5.4, 5.6]`, `z ∈ [0, 10]` yields one collision resolved
along X with normal `(-1,0,0)` and depth the X-overlap `0.2`. -/
theorem C4_willCollide_resolves_each_intersecting_collider_witness :
    intersectsBox c4Box c4Wall = true ∧
    wallCollision c4Box c4Wall ∈ willCollide c4Box [c4Wall] ∧
    (wallCollision c4Box c4Wall).depth = 1/5 ∧
    (wallCollision c4Box c4Wall).normal = ⟨-1, 0, 0⟩ := by
  have hint : intersectsBox c4Box c4Wall = true := by
    norm_num [intersectsBox, c4Box, c4Wall, getBoundingBoxAt]
  have hmain := (C4_willCollide_resolves_each_intersecting_collider c4Box [c4Wall]).2.2
    c4Wall (List.mem_singleton.mpr rfl) hint
  refine ⟨hint, hmain.1, ?_, ?_⟩
  · rw [hmain.2.1]
    norm_num [c4Box, c4Wall, getBoundingBoxAt]
  · unfold wallCollision
    norm_num [c4Box, c4Wall, getBoundingBoxAt, boxCenter]

theorem mem_intRange {lo : ℤ} {n : ℕ} {a : ℤ} :
    a ∈ intRange lo n ↔ lo ≤ a ∧ a < lo + n := by
  simp only [intRange, List.mem_map, List.mem_range]
  constructor
  · rintro ⟨i, hi, rfl⟩
    omega
  · rintro ⟨h1, h2⟩
    exact ⟨(a - lo).toNat, by omega, by omega⟩

theorem mem_intRangeIcc {lo hi a : ℤ} : a ∈ intRangeIcc lo hi ↔ lo ≤ a ∧ a ≤ hi := by
  unfold intRangeIcc
  by_cases hle : lo ≤ hi
  · rw [if_pos hle, mem_intRange]
    omega
  · rw [if_neg hle]
    simp only [List.not_mem_nil, false_iff]
    omega

theorem flatMap_nil_fun {α β : Type} (l : List α) :
    (l.flatMap (fun _ => ([] : List β))) = [] := by
  induction l with
  | nil => rfl
  | cons a rest ih => rw [List.flatMap_cons, List.nil_append, ih]

/-- C6: for every world position and entity size, the spatial queries only
visit bucket indices inside `[0, width) × [0, height)` (the computed grid
range is clamped), and whenever the query box lies strictly outside the grid
(given a positive cell size) the visited range is empty and both queries
return the empty list instead of failing. -/
theorem C6_spatial_queries_clamped :
    ∀ (width height : ℤ) (cellSize : ℚ) (pos : Vec3) (size : ℚ),
      (∀ gz gx : ℤ, (gz, gx) ∈ nearbyCellIdx width height cellSize pos size →
        0 ≤ gx ∧ gx < width ∧ 0 ≤ gz ∧ gz < height) ∧
      (0 < cellSize →
        (pos.x + size / 2 < 0 ∨ (width : ℚ) * cellSize < pos.x - size / 2 ∨
         pos.z + size / 2 < 0 ∨ (height : ℚ) * cellSize < pos.z - size / 2) →
        nearbyCellIdx width height cellSize pos size = [] ∧
        (∀ bw : ℤ → ℤ → List Box3,
          getNearbyWallColliders width height cellSize bw pos size = []) ∧
        (∀ bp : ℤ → ℤ → List PelletM,
          getNearbyPellets width height cellSize bp pos size = [])) := by
  intro width height cellSize pos size
  constructor
  · intro gz gx hmem
    simp only [nearbyCellIdx, gridIdxRange, List.mem_flatMap, List.mem_map,
      Prod.mk.injEq] at hmem
    obtain ⟨z', hz', x', hx', heq⟩ := hmem
    obtain ⟨h1, h2⟩ := heq
    subst h1
    subst h2
    rw [mem_intRangeIcc] at hz' hx'
    have h1 := le_max_left (0 : ℤ) ⌊(pos.x - size / 2) / cellSize⌋
    have h2 := min_le_left (width - 1) ⌊(pos.x + size / 2) / cellSize⌋
    have h3 := le_max_left (0 : ℤ) ⌊(pos.z - size / 2) / cellSize⌋
    have h4 := min_le_left (height - 1) ⌊(pos.z + size / 2) / cellSize⌋
    omega
  · intro hcs hout
    have hempty : nearbyCellIdx width height cellSize pos size = [] := by
      rcases hout with hxlo | hxhi | hzlo | hzhi
      · have hflo : ⌊(pos.x + size / 2) / cellSize⌋ < 0 := by
          rw [Int.floor_lt]
          push_cast
          exact div_neg_of_neg_of_pos hxlo hcs
        have hxr : gridIdxRange cellSize width (pos.x - size / 2)
            (pos.x + size / 2) = [] := by
          unfold gridIdxRange intRangeIcc
          rw [if_neg]
          have := min_le_right (width - 1) ⌊(pos.x + size / 2) / cellSize⌋
          have := le_max_left (0 : ℤ) ⌊(pos.x - size / 2) / cellSize⌋
          omega
        simp only [nearbyCellIdx, hxr, List.map_nil]
        exact flatMap_nil_fun _
      · have hflo : (width : ℤ) ≤ ⌊(pos.x - size / 2) / cellSize⌋ := by
          rw [Int.le_floor]
          rw [le_div_iff₀ hcs]
          linarith
        have hxr : gridIdxRange cellSize width (pos.x - size / 2)
            (pos.x + size / 2) = [] := by
          unfold gridIdxRange intRangeIcc
          rw [if_neg]
          have := min_le_left (width - 1) ⌊(pos.x + size / 2) / cellSize⌋
          have := le_max_right (0 : ℤ) ⌊(pos.x - size / 2) / cellSize⌋
          omega
        simp only [nearbyCellIdx, hxr, List.map_nil]
        exact flatMap_nil_fun _
      · have hflo : ⌊(pos.z + size / 2) / cellSize⌋ < 0 := by
          rw [Int.floor_lt]
          push_cast
          exact div_neg_of_neg_of_pos hzlo hcs
        have hzr : gridIdxRange cellSize height (pos.z - size / 2)
            (pos.z + size / 2) = [] := by
          unfold gridIdxRange intRangeIcc
          rw [if_neg]
          have := min_le_right (height - 1) ⌊(pos.z + size / 2) / cellSize⌋
          have := le_max_left (0 : ℤ) ⌊(pos.z - size / 2) / cellSize⌋
          omega
        simp only [nearbyCellIdx, hzr, List.flatMap_nil]
      · have hflo : (height : ℤ) ≤ ⌊(pos.z - size / 2) / cellSize⌋ := by
          rw [Int.le_floor]
          rw [le_div_iff₀ hcs]
          linarith
        have hzr : gridIdxRange cellSize height (pos.z - size / 2)
            (pos.z + size / 2) = [] := by
          unfold gridIdxRange intRangeIcc
          rw [if_neg]
          have := min_le_left (height - 1) ⌊(pos.z + size / 2) / cellSize⌋
          have := le_max_right (0 : ℤ) ⌊(pos.z - size / 2) / cellSize⌋
          omega
        simp only [nearbyCellIdx, hzr, List.flatMap_nil]
    refine ⟨hempty, ?_, ?_⟩
    · intro bw
      unfold getNearbyWallColliders
      rw [hempty]
      rfl
    · intro bp
      unfold getNearbyPellets
      rw [hempty]
      rfl

/-- C6 witness: a query fully west of a 2×2 grid returns empty from both
queries, whatever the buckets contain. -/
theorem C6_spatial_queries_clamped_witness :
    getNearbyWallColliders 2 2 5 (fun _ _ => [c4Wall]) ⟨-10, 0, 3⟩ 2 = [] ∧
    getNearbyPellets 2 2 5 (fun _ _ => [⟨5/2, 5/2⟩]) ⟨-10, 0, 3⟩ 2 = [] := by
  have h := C6_spatial_queries_clamped 2 2 5 ⟨-10, 0, 3⟩ 2
  have hout := h.2 (by norm_num) (Or.inl (by norm_num))
  exact ⟨hout.2.1 _, hout.2.2 _⟩

theorem removeFirst_of_not_mem {l : List PelletM} {m : PelletM} (h : m ∉ l) :
    removeFirst l m = l := by
  induction l with
  | nil => rfl
  | cons x xs ih =>
      rw [List.mem_cons, not_or] at h
      unfold removeFirst
      rw [if_neg (fun he => h.1 he.symm), ih h.2]

theorem not_mem_removeFirst {l : List PelletM} {m : PelletM}
    (h : l.count m ≤ 1) : m ∉ removeFirst l m := by
  induction l with
  | nil => simp [removeFirst]
  | cons x xs ih =>
      unfold removeFirst
      by_cases hx : x = m
      · rw [if_pos hx]
        subst hx
        rw [List.count_cons_self] at h
        exact List.count_eq_zero.mp (by omega)
      · rw [if_neg hx, List.mem_cons, not_or]
        rw [List.count_cons_of_ne (fun he => hx he.symm)] at h
        exact ⟨fun he => hx he.symm, ih h⟩

theorem jsGet_nonneg {α : Type} {l : List α} {i : ℤ} {a : α}
    (h : jsGet l i = some a) : 0 ≤ i := by
  by_contra hneg
  rw [jsGet, if_pos (by omega)] at h
  exact Option.noConfusion h

theorem get_set_self {α : Type} {l : List α} {n : ℕ} {a : α} (v : α)
    (h : l.get? n = some a) : (l.set n v).get? n = some v := by
  induction l generalizing n with
  | nil => simp at h
  | cons x xs ih =>
      cases n with
      | zero => rfl
      | succ k => exact ih (by simpa using h)

theorem set_get_self {α : Type} {l : List α} {n : ℕ} {a : α}
    (h : l.get? n = some a) : l.set n a = l := by
  induction l generalizing n with
  | nil => rfl
  | cons x xs ih =>
      cases n with
      | zero => simp at h; rw [h]; rfl
      | succ k =>
          have := ih (n := k) (by simpa using h)
          simp [List.set, this]

theorem jsGet_jsSet_self {α : Type} {l : List α} {i : ℤ} {a : α} (v : α)
    (h : jsGet l i = some a) : jsGet (jsSet l i v) i = some v := by
  have h0 : ¬ i < 0 := by have := jsGet_nonneg h; omega
  rw [jsGet, if_neg h0] at h ⊢
  exact get_set_self v h

theorem jsSet_jsGet_self {α : Type} {l : List α} {i : ℤ} {a : α}
    (h : jsGet l i = some a) : jsSet l i a = l := by
  have h0 : ¬ i < 0 := by have := jsGet_nonneg h; omega
  rw [jsGet, if_neg h0] at h
  exact set_get_self h

theorem jsGet_mem {α : Type} {l : List α} {i : ℤ} {a : α}
    (h : jsGet l i = some a) : a ∈ l := by
  unfold jsGet at h
  by_cases h0 : i < 0
  · rw [if_pos h0] at h
    exact Option.noConfusion h
  · rw [if_neg h0] at h
    exact List.get?_mem h

/-- C9: `removePellet` is idempotent.  For any pellet state whose group and
buckets hold each mesh handle at most once (mesh reference identity: a mesh is
a child of the group at most once and is placed in exactly one bucket by
`spawnPellets`), if the first call succeeds with state `s'`, the second call on
the same handle does not throw and returns `s'` unchanged — the handle is no
longer in its recomputed bucket, so `indexOf` yields `-1` and the splice is
skipped, and no count is decremented a second time. -/
theorem C9_removePellet_idempotent (cellSize : ℚ) (s : PelletState)
    (m : PelletM) (s' : PelletState)
    (hg : s.group.count m ≤ 1)
    (hb : ∀ row ∈ s.lists, ∀ cell ∈ row, cell.count m ≤ 1)
    (h1 : removePellet cellSize s m = some s') :
    removePellet cellSize s' m = some s' := by
  simp only [removePellet] at h1 ⊢
  cases hrow : jsGet s.lists ⌊m.pz / cellSize⌋ with
  | none =>
      rw [hrow] at h1
      exact Option.noConfusion h1
  | some row =>
    rw [hrow] at h1
    dsimp only at h1
    cases hcell : jsGet row ⌊m.px / cellSize⌋ with
    | none =>
        rw [hcell] at h1
        exact Option.noConfusion h1
    | some cell =>
      rw [hcell] at h1
      dsimp only at h1
      injection h1 with h1
      have hcellcnt : cell.count m ≤ 1 :=
        hb row (jsGet_mem hrow) cell (jsGet_mem hcell)
      have hc' : removeFirst (removeFirst cell m) m = removeFirst cell m :=
        removeFirst_of_not_mem (not_mem_removeFirst hcellcnt)
      have hgrp : removeFirst (removeFirst s.group m) m =
          removeFirst s.group m :=
        removeFirst_of_not_mem (not_mem_removeFirst hg)
      have hrow' : jsGet s'.lists ⌊m.pz / cellSize⌋ =
          some (jsSet row ⌊m.px / cellSize⌋ (removeFirst cell m)) := by
        rw [← h1]
        exact jsGet_jsSet_self _ hrow
      rw [hrow']
      dsimp only
      have hcell' : jsGet (jsSet row ⌊m.px / cellSize⌋ (removeFirst cell m))
          ⌊m.px / cellSize⌋ = some (removeFirst cell m) :=
        jsGet_jsSet_self _ hcell
      rw [hcell']
      dsimp only
      have hgrp' : s'.group = removeFirst s.group m := by rw [← h1]
      rw [hgrp', hgrp, hc']
      have hsetrow : jsSet (jsSet row ⌊m.px / cellSize⌋ (removeFirst cell m))
          ⌊m.px / cellSize⌋ (removeFirst cell m) =
          jsSet row ⌊m.px / cellSize⌋ (removeFirst cell m) :=
        jsSet_jsGet_self hcell'
      rw [hsetrow]
      have hsetlists : jsSet s'.lists ⌊m.pz / cellSize⌋
          (jsSet row ⌊m.px / cellSize⌋ (removeFirst cell m)) = s'.lists :=
        jsSet_jsGet_self hrow'
      rw [hsetlists]
      rw [← h1]

/-- C9 witness: on the 1×1 maze's pellet state, removing the sole pellet once
yields the empty state, and removing it again returns that same state. -/
theorem C9_removePellet_idempotent_witness :
    removePellet 5 (spawnPellets 1 1 5) ⟨5/2, 5/2⟩ = some ⟨[], [[[]]]⟩ ∧
    removePellet 5 ⟨[], [[[]]]⟩ ⟨5/2, 5/2⟩ = some ⟨[], [[[]]]⟩ := by
  have hsp : spawnPellets 1 1 5 = ⟨[⟨5/2, 5/2⟩], [[[⟨5/2, 5/2⟩]]]⟩ := by
    norm_num [spawnPellets, intRange, List.range, List.range.loop]
  have h1 : removePellet 5 (spawnPellets 1 1 5) ⟨5/2, 5/2⟩ =
      some ⟨[], [[[]]]⟩ := by
    rw [hsp]
    norm_num [removePellet, jsGet, jsSet, removeFirst]
  exact ⟨h1, C9_removePellet_idempotent 5 (spawnPellets 1 1 5) ⟨5/2, 5/2⟩
    ⟨[], [[[]]]⟩
    (by rw [hsp]; simp)
    (by rw [hsp]
        intro row hrow cell hcell
        simp only [List.mem_singleton] at hrow
        subst hrow
        simp only [List.mem_singleton] at hcell
        subst hcell
        simp)
    h1⟩

theorem scanLine_eq (opn : ℤ → Bool) (len : ℤ) :
    scanLine opn len =
      (match (intRange 0 (len.toNat + 1)).foldl (scanStep opn len) (none, []) with
       | (some a, out) => out ++ [(a, len)]
       | (none, out) => out) := by
  unfold scanLine scanStep
  rcases hfin : (intRange 0 (len.toNat + 1)).foldl _ (none, []) with ⟨st, out⟩
  cases st <;> simp [hfin]
theorem intRange_zero_succ (k : ℕ) :
    intRange 0 (k + 1) = intRange 0 k ++ [(k : ℤ)] := by
  unfold intRange
  rw [List.range_succ, List.map_append]
  simp
theorem scan_fold_inv (opn : ℤ → Bool) (len : ℤ) :
    ∀ k : ℕ, (k : ℤ) ≤ len + 1 →
      ScanInv opn len (k : ℤ) ((intRange 0 k).foldl (scanStep opn len) (none, [])) := by
  intro k
  induction k with
  | zero =>
      intro _
      refine ⟨?_, ?_, ?_, ?_, ?_⟩
      · intro a ha; exact Option.noConfusion ha
      · intro _; exact Or.inl rfl
      · intro a b
        constructor
        · intro hmem; exact absurd hmem (List.not_mem_nil _)
        · rintro ⟨_, _, hbK, _⟩; push_cast at hbK; omega
      · intro a ha; exact Option.noConfusion ha
      · exact List.Pairwise.nil
  | succ k ih =>
      intro hk1
      have hkle : (k : ℤ) ≤ len + 1 := by push_cast at hk1 ⊢; omega
      have IH := ih hkle
      rw [intRange_zero_succ, List.foldl_append]
      set fin := (intRange 0 k).foldl (scanStep opn len) (none, []) with hfin
      obtain ⟨I1, I2, I3, I4, I5⟩ := IH
      simp only [List.foldl_cons, List.foldl_nil]
      by_cases hopen : (k : ℤ) < len ∧ opn (k : ℤ) = true
      · -- open position k
        cases hst : fin.1 with
        | some a =>
            -- flush (a, k)
            have hA := I1 a hst
            rw [scanStep, if_pos hopen, hst]
            refine ⟨?_, ?_, ?_, ?_, ?_⟩
            · intro a' ha'; exact Option.noConfusion ha'
            · intro _
              right
              push_cast
              constructor
              · omega
              · simpa using hopen.2
            · intro a' b'
              rw [List.mem_append, List.mem_singleton, I3, Prod.mk.injEq]
              constructor
              · rintro (⟨h1, h2, h3, h4, h5, h6, h7⟩ | ⟨rfl, rfl⟩)
                · exact ⟨h1, h2, by push_cast; omega, h4, h5, h6, h7⟩
                · refine ⟨hA.1, hA.2.1, by push_cast; omega, hopen.1, hopen.2, ?_, hA.2.2.2⟩
                  intro j hja hjk
                  have := hA.2.2.1 j hja hjk
                  by_contra hop
                  exact this ⟨by omega, by simpa using hop⟩
              · rintro ⟨h1, h2, h3, h4, h5, h6, h7⟩
                by_cases hbk : b' < (k : ℤ)
                · exact Or.inl ⟨h1, h2, hbk, h4, h5, h6, h7⟩
                · have hbe : b' = (k : ℤ) := by push_cast at h3; omega
                  subst hbe
                  right
                  -- uniqueness of the left endpoint
                  refine ⟨?_, rfl⟩
                  rcases lt_trichotomy a' a with hlt | heq | hgt
                  · exfalso
                    have ha1 : a - 1 < (k : ℤ) := by omega
                    have := h6 (a - 1) (by omega) (by omega)
                    rcases hA.2.2.2 with h0 | hop
                    · omega
                    · rw [this] at hop; exact Bool.noConfusion hop
                  · exact heq.symm ▸ rfl
                  · exfalso
                    have := hA.2.2.1 (a' - 1) (by omega) (by omega)
                    rcases h7 with h0 | hop
                    · omega
                    · exact this ⟨by omega, hop⟩
            · intro a' ha'; exact Option.noConfusion ha'
            · rw [List.pairwise_append]
              refine ⟨I5, List.pairwise_singleton _ _, ?_⟩
              intro p hp q hq
              rw [List.mem_singleton] at hq
              subst hq
              exact I4 a hst p hp
        | none =>
            rw [scanStep, if_pos hopen, hst]
            refine ⟨?_, ?_, ?_, ?_, ?_⟩
            · intro a' ha'; rw [hst] at ha'; exact Option.noConfusion ha'
            · intro _
              right
              push_cast
              exact ⟨by omega, by simpa using hopen.2⟩
            · intro a' b'
              rw [I3]
              constructor
              · rintro ⟨h1, h2, h3, h4, h5, h6, h7⟩
                exact ⟨h1, h2, by push_cast; omega, h4, h5, h6, h7⟩
              · rintro ⟨h1, h2, h3, h4, h5, h6, h7⟩
                refine ⟨h1, h2, ?_, h4, h5, h6, h7⟩
                by_contra hnb
                have hbe : b' = (k : ℤ) := by push_cast at h3; omega
                subst hbe
                rcases I2 hst with h0 | hop
                · omega
                · have := h6 ((k : ℤ) - 1) (by omega) (by omega)
                  rw [this] at hop
                  exact Bool.noConfusion hop.2
            · intro a' ha'; rw [hst] at ha'; exact Option.noConfusion ha'
            · exact I5
      · -- walled position k
        cases hst : fin.1 with
        | some a =>
            have hA := I1 a hst
            rw [scanStep, if_neg hopen, hst]
            refine ⟨?_, ?_, ?_, ?_, ?_⟩
            · intro a' ha'
              rw [hst] at ha'
              injection ha' with ha'
              subst ha'
              refine ⟨hA.1, by push_cast; omega, ?_, hA.2.2.2⟩
              intro j hja hjk
              by_cases hjk' : j < (k : ℤ)
              · exact hA.2.2.1 j hja hjk'
              · have : j = (k : ℤ) := by push_cast at hjk; omega
                subst this
                exact hopen
            · intro hn; rw [hst] at hn; exact Option.noConfusion hn
            · intro a' b'
              rw [I3]
              constructor
              · rintro ⟨h1, h2, h3, h4, h5, h6, h7⟩
                exact ⟨h1, h2, by push_cast; omega, h4, h5, h6, h7⟩
              · rintro ⟨h1, h2, h3, h4, h5, h6, h7⟩
                refine ⟨h1, h2, ?_, h4, h5, h6, h7⟩
                by_contra hnb
                have hbe : b' = (k : ℤ) := by push_cast at h3; omega
                subst hbe
                exact hopen ⟨h4, h5⟩
            · intro a' ha'
              rw [hst] at ha'
              injection ha' with ha'
              subst ha'
              exact I4 a hst
            · exact I5
        | none =>
            rw [scanStep, if_neg hopen, hst]
            refine ⟨?_, ?_, ?_, ?_, ?_⟩
            · intro a' ha'
              injection ha' with ha'
              subst ha'
              refine ⟨by positivity, by push_cast; omega, ?_, ?_⟩
              · intro j hja hjk
                have : j = (k : ℤ) := by push_cast at hjk; omega
                subst this
                exact hopen
              · rcases I2 hst with h0 | hop
                · left; omega
                · right; exact hop.2
            · intro hn; exact Option.noConfusion hn
            · intro a' b'
              rw [I3]
              constructor
              · rintro ⟨h1, h2, h3, h4, h5, h6, h7⟩
                exact ⟨h1, h2, by push_cast; omega, h4, h5, h6, h7⟩
              · rintro ⟨h1, h2, h3, h4, h5, h6, h7⟩
                refine ⟨h1, h2, ?_, h4, h5, h6, h7⟩
                by_contra hnb
                have hbe : b' = (k : ℤ) := by push_cast at h3; omega
                subst hbe
                exact hopen ⟨h4, h5⟩
            · intro a' ha'
              injection ha' with ha'
              subst ha'
              intro p hp
              have := (I3 p.1 p.2).mp (by simpa using hp)
              omega
            · exact I5
theorem scanLine_mem (opn : ℤ → Bool) (len : ℤ) (hlen : 0 ≤ len) (a b : ℤ) :
    (a, b) ∈ scanLine opn len ↔
      ((0 ≤ a ∧ a < b ∧ b ≤ len ∧ (∀ j, a ≤ j → j < b → opn j = false) ∧
        (a = 0 ∨ opn (a - 1) = true) ∧ (b = len ∨ opn b = true)) ∨
       (a = len ∧ b = len ∧ (len = 0 ∨ opn (len - 1) = true))) := by
  rw [scanLine_eq]
  have hK : ((len.toNat + 1 : ℕ) : ℤ) = len + 1 := by push_cast; omega
  have INV := scan_fold_inv opn len (len.toNat + 1) (by omega)
  rw [hK] at INV
  obtain ⟨I1, I2, I3, I4, I5⟩ := INV
  rcases hfin : (intRange 0 (len.toNat + 1)).foldl (scanStep opn len) (none, [])
    with ⟨st, out⟩
  rw [hfin] at I1 I2 I3 I4 I5
  cases st with
  | none =>
      exfalso
      rcases I2 rfl with h0 | h1
      · omega
      · omega
  | some a0 =>
      have hA := I1 a0 rfl
      simp only
      rw [List.mem_append, List.mem_singleton, Prod.mk.injEq, I3]
      constructor
      · rintro (⟨h1, h2, h3, h4, h5, h6, h7⟩ | ⟨he1, he2⟩)
        · exact Or.inl ⟨h1, h2, by omega, h6, h7, Or.inr h5⟩
        · rw [he1, he2]
          by_cases ha0 : a0 < len
          · left
            refine ⟨hA.1, ha0, le_refl _, ?_, hA.2.2.2, Or.inl rfl⟩
            intro j hja hjl
            have := hA.2.2.1 j hja (by omega)
            by_contra hop
            exact this ⟨hjl, by simpa using hop⟩
          · right
            have he : a0 = len := by omega
            refine ⟨he, rfl, ?_⟩
            rcases hA.2.2.2 with h0 | hop
            · left; omega
            · right; rw [← he]; exact hop
      · rintro (⟨h1, h2, h3, h4, h5, h6⟩ | ⟨he1, he2, hdeg⟩)
        · by_cases hbl : b < len
          · left
            rcases h6 with h6 | h6
            · omega
            · exact ⟨h1, h2, by omega, hbl, h6, h4, h5⟩
          · have hbe : b = len := by omega
            subst hbe
            right
            constructor
            · rcases lt_trichotomy a a0 with hlt | heq | hgt
              · exfalso
                have hw := h4 (a0 - 1) (by omega) (by omega)
                rcases hA.2.2.2 with h0 | hop
                · omega
                · rw [hw] at hop; exact Bool.noConfusion hop
              · exact heq
              · exfalso
                have := hA.2.2.1 (a - 1) (by omega) (by omega)
                rcases h5 with h0 | hop
                · omega
                · exact this ⟨by omega, hop⟩
            · rfl
        · have ha0 : a0 = len := by
            by_contra hne
            have ha0 : a0 < len := by omega
            have := hA.2.2.1 (len - 1) (by omega) (by omega)
            rcases hdeg with h0 | hop
            · omega
            · exact this ⟨by omega, hop⟩
          exact Or.inr ⟨he1.trans ha0.symm, he2⟩
theorem scanLine_pairwise (opn : ℤ → Bool) (len : ℤ) (hlen : 0 ≤ len) :
    List.Pairwise (fun p q : ℤ × ℤ => p.2 < q.1) (scanLine opn len) := by
  rw [scanLine_eq]
  have hK : ((len.toNat + 1 : ℕ) : ℤ) = len + 1 := by push_cast; omega
  have INV := scan_fold_inv opn len (len.toNat + 1) (by omega)
  rw [hK] at INV
  obtain ⟨I1, I2, I3, I4, I5⟩ := INV
  rcases hfin : (intRange 0 (len.toNat + 1)).foldl (scanStep opn len) (none, [])
    with ⟨st, out⟩
  rw [hfin] at I1 I2 I3 I4 I5
  cases st with
  | none => exact I5
  | some a0 =>
      simp only
      rw [List.pairwise_append]
      refine ⟨I5, List.pairwise_singleton _ _, ?_⟩
      intro p hp q hq
      rw [List.mem_singleton] at hq
      subst hq
      exact I4 a0 rfl p hp
theorem run_extend_left (opn : ℤ → Bool) :
    ∀ n : ℕ, ∀ j : ℤ, j.toNat = n → 0 ≤ j → opn j = false →
      ∃ a, 0 ≤ a ∧ a ≤ j ∧ (∀ x, a ≤ x → x ≤ j → opn x = false) ∧
        (a = 0 ∨ opn (a - 1) = true) := by
  intro n
  induction n with
  | zero =>
      intro j hj h0 hw
      have hj0 : j = 0 := by omega
      subst hj0
      refine ⟨0, le_refl _, le_refl _, ?_, Or.inl rfl⟩
      intro x hx1 hx2
      have : x = 0 := by omega
      subst this
      exact hw
  | succ m ih =>
      intro j hj h0 hw
      have hjpos : 0 < j := by omega
      by_cases hprev : opn (j - 1) = true
      · refine ⟨j, by omega, le_refl _, ?_, Or.inr hprev⟩
        intro x hx1 hx2
        have : x = j := by omega
        subst this
        exact hw
      · have hpw : opn (j - 1) = false := by
          cases hop : opn (j - 1)
          · rfl
          · exact absurd hop hprev
        obtain ⟨a, ha0, haj, hall, hmax⟩ := ih (j - 1) (by omega) (by omega) hpw
        refine ⟨a, ha0, by omega, ?_, hmax⟩
        intro x hx1 hx2
        by_cases hxj : x ≤ j - 1
        · exact hall x hx1 hxj
        · have : x = j := by omega
          subst this
          exact hw
theorem run_extend_right (opn : ℤ → Bool) (len : ℤ) :
    ∀ n : ℕ, ∀ j : ℤ, (len - 1 - j).toNat = n → 0 ≤ j → j < len → opn j = false →
      ∃ b, j < b ∧ b ≤ len ∧ (∀ x, j ≤ x → x < b → opn x = false) ∧
        (b = len ∨ opn b = true) := by
  intro n
  induction n with
  | zero =>
      intro j hj h0 hl hw
      have hje : j = len - 1 := by omega
      refine ⟨len, by omega, le_refl _, ?_, Or.inl rfl⟩
      intro x hx1 hx2
      have : x = j := by omega
      subst this
      exact hw
  | succ m ih =>
      intro j hj h0 hl hw
      have hjlt : j < len - 1 := by omega
      by_cases hnext : opn (j + 1) = true
      · refine ⟨j + 1, by omega, by omega, ?_, Or.inr hnext⟩
        intro x hx1 hx2
        have : x = j := by omega
        subst this
        exact hw
      · have hnw : opn (j + 1) = false := by
          cases hop : opn (j + 1)
          · rfl
          · exact absurd hop hnext
        obtain ⟨b, hjb, hbl, hall, hmax⟩ := ih (j + 1) (by omega) (by omega) (by omega) hnw
        refine ⟨b, by omega, hbl, ?_, hmax⟩
        intro x hx1 hx2
        by_cases hxj : j + 1 ≤ x
        · exact hall x hxj hx2
        · have : x = j := by omega
          subst this
          exact hw
theorem exists_maxrun (opn : ℤ → Bool) (len j : ℤ) (h0 : 0 ≤ j) (hl : j < len)
    (hw : opn j = false) :
    ∃ a b, a ≤ j ∧ j < b ∧ 0 ≤ a ∧ a < b ∧ b ≤ len ∧
      (∀ x, a ≤ x → x < b → opn x = false) ∧
      (a = 0 ∨ opn (a - 1) = true) ∧ (b = len ∨ opn b = true) := by
  obtain ⟨a, ha0, haj, hallL, hmaxL⟩ := run_extend_left opn j.toNat j rfl h0 hw
  obtain ⟨b, hjb, hbl, hallR, hmaxR⟩ :=
    run_extend_right opn len (len - 1 - j).toNat j rfl h0 hl hw
  refine ⟨a, b, haj, hjb, ha0, by omega, hbl, ?_, hmaxL, hmaxR⟩
  intro x hx1 hx2
  by_cases hxj : x ≤ j
  · exact hallL x hx1 hxj
  · exact hallR x (by omega) hx2
theorem vseg_mem (w h : ℤ) (g : Grid) (hw : 1 ≤ w) (hh : 1 ≤ h)
    (i a b : ℤ) (hi1 : 1 ≤ i) (hiw : i < w) :
    Seg.mk i a i b ∈ createWallSegments w h g ↔
      (a, b) ∈ scanLine (fun j => vOpen g i j) h := by
  unfold createWallSegments
  simp only [List.mem_append, List.mem_flatMap, List.mem_map, List.mem_cons,
    List.not_mem_nil, or_false, Seg.mk.injEq]
  constructor
  · rintro ((hbd | ⟨i', hi', ab, hab, he1, he2, he3, he4⟩) |
        ⟨j', hj', ab, hab, he1, he2, he3, he4⟩)
    · rcases hbd with ⟨h1, _⟩ | ⟨h1, _⟩ | ⟨h1, _, h3, _⟩ | ⟨h1, _⟩ <;> omega
    · obtain ⟨p, q⟩ := ab
      simp only at he1 he2 he3 he4
      rw [← he1, ← he2, ← he4] at *
      exact hab
    · obtain ⟨p, q⟩ := ab
      simp only at he1 he2 he3 he4
      rw [mem_intRange] at hj'
      subst he1
      subst he3
      rw [scanLine_mem _ _ (by omega)] at hab
      rcases hab with ⟨_, hlt, _⟩ | ⟨hew, _⟩
      · omega
      · omega
  · intro hmem
    left
    right
    refine ⟨i, ?_, (a, b), hmem, rfl, rfl, rfl, rfl⟩
    rw [mem_intRange]
    omega
theorem hseg_mem (w h : ℤ) (g : Grid) (hw : 1 ≤ w) (hh : 1 ≤ h)
    (j a b : ℤ) (hj1 : 1 ≤ j) (hjh : j < h) :
    Seg.mk a j b j ∈ createWallSegments w h g ↔
      (a, b) ∈ scanLine (fun i => hOpen g i j) w := by
  unfold createWallSegments
  simp only [List.mem_append, List.mem_flatMap, List.mem_map, List.mem_cons,
    List.not_mem_nil, or_false, Seg.mk.injEq]
  constructor
  · rintro ((hbd | ⟨i', hi', ab, hab, he1, he2, he3, he4⟩) |
        ⟨j', hj', ab, hab, he1, he2, he3, he4⟩)
    · rcases hbd with ⟨_, h2, _⟩ | ⟨_, h2, _⟩ | ⟨_, h2, _⟩ | ⟨_, h2, _⟩ <;> omega
    · obtain ⟨p, q⟩ := ab
      simp only at he1 he2 he3 he4
      rw [mem_intRange] at hi'
      subst he2
      subst he4
      rw [scanLine_mem _ _ (by omega)] at hab
      rcases hab with ⟨_, hlt, _⟩ | ⟨heh, _⟩
      · omega
      · omega
    · obtain ⟨p, q⟩ := ab
      simp only at he1 he2 he3 he4
      rw [← he1, ← he2, ← he3] at *
      exact hab
  · intro hmem
    right
    refine ⟨j, ?_, (a, b), hmem, rfl, rfl, rfl, rfl⟩
    rw [mem_intRange]
    omega
/-- C5 (amended): for every maze grid with `w, h ≥ 1`, `createWallSegments`
emits the four boundary segments; an internal vertical (resp. horizontal)
segment is emitted iff it is a maximal contiguous walled run of its line or it
is the zero-length trailing segment `(len,len)` emitted exactly when the
line's last unit position has a passage; every walled unit position of every
internal line is covered by an emitted segment; and each line's emitted runs
are strictly ordered (pairwise disjoint and non-touching).  The original
claim fails only by the zero-length segments (`C5_degenerate_segment_emitted`). -/
theorem C5_wall_segments_maximal_runs (w h : ℤ) (g : Grid) (hw : 1 ≤ w) (hh : 1 ≤ h) :
    (∀ s ∈ ([⟨0, 0, 0, h⟩, ⟨w, 0, w, h⟩, ⟨0, 0, w, 0⟩, ⟨0, h, w, h⟩] : List Seg),
        s ∈ createWallSegments w h g) ∧
    (∀ i a b, 1 ≤ i → i < w →
      (Seg.mk i a i b ∈ createWallSegments w h g ↔
        (IsMaxRunV g h i a b ∨ (a = h ∧ b = h ∧ vOpen g i (h - 1) = true)))) ∧
    (∀ j a b, 1 ≤ j → j < h →
      (Seg.mk a j b j ∈ createWallSegments w h g ↔
        (IsMaxRunH g w j a b ∨ (a = w ∧ b = w ∧ hOpen g (w - 1) j = true)))) ∧
    (∀ i j, 1 ≤ i → i < w → 0 ≤ j → j < h → vOpen g i j = false →
      ∃ a b, a ≤ j ∧ j < b ∧ Seg.mk i a i b ∈ createWallSegments w h g) ∧
    (∀ j i, 1 ≤ j → j < h → 0 ≤ i → i < w → hOpen g i j = false →
      ∃ a b, a ≤ i ∧ i < b ∧ Seg.mk a j b j ∈ createWallSegments w h g) ∧
    (∀ i, List.Pairwise (fun p q : ℤ × ℤ => p.2 < q.1)
        (scanLine (fun j => vOpen g i j) h)) ∧
    (∀ j, List.Pairwise (fun p q : ℤ × ℤ => p.2 < q.1)
        (scanLine (fun i => hOpen g i j) w)) := by
  have hVC : ∀ i a b, 1 ≤ i → i < w →
      (Seg.mk i a i b ∈ createWallSegments w h g ↔
        (IsMaxRunV g h i a b ∨ (a = h ∧ b = h ∧ vOpen g i (h - 1) = true))) := by
    intro i a b hi1 hiw
    rw [vseg_mem w h g hw hh i a b hi1 hiw, scanLine_mem _ _ (by omega)]
    unfold IsMaxRunV
    constructor
    · rintro (⟨h1, h2, h3, h4, h5, h6⟩ | ⟨h1, h2, h3⟩)
      · exact Or.inl ⟨h2, h1, h3, h4, h5, h6⟩
      · refine Or.inr ⟨h1, h2, ?_⟩
        rcases h3 with h0 | hop
        · omega
        · exact hop
    · rintro (⟨h1, h2, h3, h4, h5, h6⟩ | ⟨h1, h2, h3⟩)
      · exact Or.inl ⟨h2, h1, h3, h4, h5, h6⟩
      · exact Or.inr ⟨h1, h2, Or.inr h3⟩
  have hHC : ∀ j a b, 1 ≤ j → j < h →
      (Seg.mk a j b j ∈ createWallSegments w h g ↔
        (IsMaxRunH g w j a b ∨ (a = w ∧ b = w ∧ hOpen g (w - 1) j = true))) := by
    intro j a b hj1 hjh
    rw [hseg_mem w h g hw hh j a b hj1 hjh, scanLine_mem _ _ (by omega)]
    unfold IsMaxRunH
    constructor
    · rintro (⟨h1, h2, h3, h4, h5, h6⟩ | ⟨h1, h2, h3⟩)
      · exact Or.inl ⟨h2, h1, h3, h4, h5, h6⟩
      · refine Or.inr ⟨h1, h2, ?_⟩
        rcases h3 with h0 | hop
        · omega
        · exact hop
    · rintro (⟨h1, h2, h3, h4, h5, h6⟩ | ⟨h1, h2, h3⟩)
      · exact Or.inl ⟨h2, h1, h3, h4, h5, h6⟩
      · exact Or.inr ⟨h1, h2, Or.inr h3⟩
  refine ⟨?_, hVC, hHC, ?_, ?_, ?_, ?_⟩
  · intro s hs
    unfold createWallSegments
    rw [List.mem_append, List.mem_append]
    exact Or.inl (Or.inl hs)
  · intro i j hi1 hiw hj0 hjh hwj
    obtain ⟨a, b, haj, hjb, ha0, hab, hbh, hall, hmaxL, hmaxR⟩ :=
      exists_maxrun (fun j => vOpen g i j) h j hj0 hjh hwj
    exact ⟨a, b, haj, hjb,
      (hVC i a b hi1 hiw).mpr (Or.inl ⟨hab, ha0, hbh, hall, hmaxL, hmaxR⟩)⟩
  · intro j i hj1 hjh hi0 hiw hwj
    obtain ⟨a, b, hai, hib, ha0, hab, hbw, hall, hmaxL, hmaxR⟩ :=
      exists_maxrun (fun i => hOpen g i j) w i hi0 hiw hwj
    exact ⟨a, b, hai, hib,
      (hHC j a b hj1 hjh).mpr (Or.inl ⟨hab, ha0, hbw, hall, hmaxL, hmaxR⟩)⟩
  · intro i
    exact scanLine_pairwise _ _ (by omega)
  · intro j
    exact scanLine_pairwise _ _ (by omega)

/-- C5 witness: on the uncarved 2×1 grid the boundary segment `(0,0)-(0,1)`
is emitted and the walled internal position on the line `x = 1` is covered
by an emitted segment. -/
theorem C5_wall_segments_maximal_runs_witness :
    Seg.mk 0 0 0 1 ∈ createWallSegments 2 1 zeroGrid ∧
    (∃ a b, a ≤ 0 ∧ (0 : ℤ) < b ∧
      Seg.mk 1 a 1 b ∈ createWallSegments 2 1 zeroGrid) :=
  ⟨(C5_wall_segments_maximal_runs 2 1 zeroGrid (by norm_num) (by norm_num)).1
      (Seg.mk 0 0 0 1) (by simp),
   (C5_wall_segments_maximal_runs 2 1 zeroGrid (by norm_num)
      (by norm_num)).2.2.2.1 1 0 (by norm_num) (by norm_num) (by norm_num)
      (by norm_num) (by decide)⟩

/-- C10: the wall candidates tested by `willCollide(position)` come from the
buckets around the player's CURRENT position, not the candidate argument.  On
the carved 2×2 maze (cell size 5) with the player at the center of cell
`(0,0)`, the query for the candidate position `(9.5, 1, 7.5)` returns no
collision at all — yet the east boundary wall's collider box is part of the
maze's wall data and intersects the candidate's bounding box. -/
theorem C10_buckets_follow_current_position :
    supervisorWillCollide 2 2 5 2 c10Grid 2 ⟨5/2, 1, 5/2⟩ ⟨19/2, 1, 15/2⟩ = [] ∧
    wallBoxFor 5 2 (Seg.mk 2 0 2 2) ∈ (mazeWallData 2 2 5 2 c10Grid).2.1 ∧
    intersectsBox (getBoundingBoxAt 2 ⟨19/2, 1, 15/2⟩)
      (wallBoxFor 5 2 (Seg.mk 2 0 2 2)) = true := by
  have hsegs : createWallSegments 2 2 c10Grid =
      [⟨0, 0, 0, 2⟩, ⟨2, 0, 2, 2⟩, ⟨0, 0, 2, 0⟩, ⟨0, 2, 2, 2⟩,
       ⟨1, 2, 1, 2⟩, ⟨1, 1, 2, 1⟩] := by decide
  have hbkt : (mazeWallData 2 2 5 2 c10Grid).2.2 0 0 =
      [wallBoxFor 5 2 ⟨0, 0, 0, 2⟩, wallBoxFor 5 2 ⟨0, 0, 2, 0⟩] := by
    unfold mazeWallData
    rw [hsegs]
    simp only [List.map_cons, List.map_nil, List.zip_cons_cons,
      List.zip_nil_right, populateWallLists, List.foldl_cons, List.foldl_nil]
    norm_num [populateSeg, intRange, List.range, List.range.loop, bktPush]
  have hidx : nearbyCellIdx 2 2 5 ⟨5/2, 1, 5/2⟩ 2 = [(0, 0)] := by
    norm_num [nearbyCellIdx, gridIdxRange, intRangeIcc, intRange]
    decide
  refine ⟨?_, ?_, ?_⟩
  · unfold supervisorWillCollide getNearbyWallColliders
    rw [hidx]
    simp only [List.flatMap_cons, List.flatMap_nil, List.append_nil]
    rw [hbkt]
    norm_num [willCollide, intersectsBox, getBoundingBoxAt, wallBoxFor]
  · unfold mazeWallData
    rw [hsegs]
    simp
  · norm_num [intersectsBox, getBoundingBoxAt, wallBoxFor]

/-- C3 witness: the invariant at a concrete write and a concrete maze. -/
theorem C3_symmetric_adjacency_invariant_witness :
    SymmAdj 2 1 (carveWrite zeroGrid 0 0 Dir.east (0 + dx Dir.east) (0 + dz Dir.east)) ∧
    SymmAdj 2 2 (generateMaze 2 2 rhoConst) :=
  ⟨C3_symmetric_adjacency_invariant.1 2 1 zeroGrid 0 0 Dir.east
      (symmAdj_zeroGrid 2 1) (by decide) (by decide) rfl,
    C3_symmetric_adjacency_invariant.2 2 2 rhoConst (by omega) (by omega)
      (fun _ => List.Perm.refl _)⟩

end Tess
